import Mathlib

/-!
Verification development for the flatnav single-layer navigable
proximity-graph engine (src/flatnav/Index.h), its SIMD distance kernels
(src/flatnav/util/SIMDDistanceSpecializations.h) and the centroid trainer
(src/quantization/CentroidsGenerator.h).

The C++ `Index<dist_t, label_t>` (with `_product_quantizer == nullptr`, the
raw-vector configuration) is embedded shallowly:

* node records (`[data][M links][label]`) become a structure `GNode`;
* the contiguous node block becomes a function `Nat → GNode` together with
  the allocation counter `curN` (slots at and beyond `curN` model the
  uninitialized tail of the pre-allocated block);
* `std::priority_queue<std::pair<float, node_id_t>>` (a max-heap under the
  lexicographic pair order) is modelled as a list kept sorted in decreasing
  lexicographic order, head = top;
* float distances are modelled by an arbitrary linearly ordered type with a
  negation (the engine only compares and negates distances); concrete
  instantiations in witnesses use `ℤ`, the ℚ-valued kernels are modelled
  separately;
* the `ExplicitSet` visited-set scratch (its header is not part of the
  sources at hand) is modelled from the spec as a finite set of node ids;
* the two C++ `while` loops without a structural decrease (`beamSearch` and
  the cycle walk of `relabel`) take an explicit fuel argument; the callers
  pass a bound derived from the loop's termination measure (each iteration
  of either loop permanently marks at least one fresh node visited, or pops
  one queue entry whose pushes are capped by the fresh marks).
-/

namespace Flatnav

section PriorityQueueModel

variable {D : Type} [LinearOrder D]

/-- Comparison underlying `std::priority_queue<std::pair<float, node_id_t>>`:
`a` is at least `b` in the lexicographic pair order.  The queue is modelled
as a list sorted in decreasing order under this relation, so the head is the
element `top()` returns. -/
def pqGe (a b : D × Nat) : Prop := b.1 < a.1 ∨ (b.1 = a.1 ∧ b.2 ≤ a.2)

instance : DecidableRel (@pqGe D _) := fun a b => by unfold pqGe; infer_instance

instance : IsTotal (D × Nat) pqGe where
  total a b := by
    rcases lt_trichotomy a.1 b.1 with h | h | h
    · exact Or.inr (Or.inl h)
    · rcases Nat.le_total b.2 a.2 with h2 | h2
      · exact Or.inl (Or.inr ⟨h.symm, h2⟩)
      · exact Or.inr (Or.inr ⟨h, h2⟩)
    · exact Or.inl (Or.inl h)

instance : IsTrans (D × Nat) pqGe where
  trans a b c hab hbc := by
    rcases hab with h1 | ⟨h1, h1'⟩ <;> rcases hbc with h2 | ⟨h2, h2'⟩
    · exact Or.inl (h2.trans h1)
    · exact Or.inl (lt_of_eq_of_lt h2 h1)
    · exact Or.inl (h2.trans_eq h1)
    · exact Or.inr ⟨h2.trans h1, h2'.trans h1'⟩

/-- `emplace` into the priority-queue model: ordered insertion keeping the
list sorted in decreasing lexicographic order. -/
def pqInsert (x : D × Nat) (l : List (D × Nat)) : List (D × Nat) :=
  List.orderedInsert pqGe x l

end PriorityQueueModel

section Engine

variable {D : Type} [LinearOrder D] [Neg D] {α β : Type}

/-- One node record: `[data region][link region][label region]`
(`Index::getNodeData`, `getNodeLinks`, `getNodeLabel`). -/
structure GNode (α β : Type) where
  data : α
  links : List Nat
  label : β
deriving DecidableEq

/-- The index state: `_M`, `_max_node_count`, `_cur_num_nodes` and the node
memory block.  Slots `≥ curN` are the uninitialized tail of the block. -/
structure IndexSt (α β : Type) where
  M : Nat
  maxN : Nat
  curN : Nat
  mem : Nat → GNode α β

/-- Pointwise update of the node block. -/
def updMem (mem : Nat → GNode α β) (i : Nat) (x : GNode α β) : Nat → GNode α β :=
  fun j => if j = i then x else mem j

def IndexSt.linksOf (st : IndexSt α β) (n : Nat) : List Nat := (st.mem n).links

def IndexSt.dataOf (st : IndexSt α β) (n : Nat) : α := (st.mem n).data

def IndexSt.labelOf (st : IndexSt α β) (n : Nat) : β := (st.mem n).label

/-- Replace one node's link region. -/
def setLinks (st : IndexSt α β) (n : Nat) (ls : List Nat) : IndexSt α β :=
  { st with mem := updMem st.mem n { st.mem n with links := ls } }

/-- The nodes visited by `for (node = 0; node < curN; node += step)`:
`0, step, 2·step, …` strictly below `curN` (assuming `1 ≤ step`, which the
caller guarantees). -/
def strideNodes (curN step : Nat) : List Nat :=
  (List.range ((curN + step - 1) / step)).map (fun k => k * step)

/-- The running minimum scan of `Index::initializeSearch`: `min_dist` starts
at `FLT_MAX` (modelled as `none`, `entry_node = 0`), and each candidate with
a strictly smaller distance replaces the current best (ties keep the earlier
node). -/
def argminFold (dq : Nat → D) : List Nat → Option (D × Nat) → Option (D × Nat)
  | [], best => best
  | n :: ns, best =>
    match best with
    | none => argminFold dq ns (some (dq n, n))
    | some (bd, bn) =>
      if dq n < bd then argminFold dq ns (some (dq n, n))
      else argminFold dq ns (some (bd, bn))

/-- Models `Index::initializeSearch`: stride through the allocated range with
step `⌊curN / numInit⌋` (minimum 1) and return the node closest to the query
(`0` when no node is scanned). -/
def pickEntryNode (dq : Nat → D) (curN numInit : Nat) : Nat :=
  let step0 := curN / numInit
  let step := if step0 = 0 then 1 else step0
  match argminFold dq (strideNodes curN step) none with
  | none => 0
  | some p => p.2

/-- Models `Index::allocateNode`: refuse when the block is full, otherwise
write the transformed data, the label and `M` self-loop links at slot
`curN` and increment the counter. -/
def allocateNode (tf : α → α) (st : IndexSt α β) (v : α) (lbl : β) :
    Option (IndexSt α β × Nat) :=
  if st.maxN ≤ st.curN then none
  else
    let newId := st.curN
    some ({ st with
              curN := st.curN + 1,
              mem := updMem st.mem newId ⟨tf v, List.replicate st.M newId, lbl⟩ },
          newId)

/-- Beam-search working state: frontier `C` (entries carry negated
distances, so the head is the nearest candidate), result heap `W`, visited
set, and the current `max_dist` (distance of the farthest result). -/
structure BeamSt (D : Type) where
  cands : List (D × Nat)
  nbrs : List (D × Nat)
  vis : Finset Nat
  maxDist : D

/-- One neighbor-expansion step of the beam-search inner `for` loop over the
links of the popped node. -/
def beamExpand (dq : Nat → D) (buf : Nat) (bs : BeamSt D) (l : Nat) : BeamSt D :=
  if l ∈ bs.vis then bs
  else
    let vis' := insert l bs.vis
    let dist := dq l
    if bs.nbrs.length < buf ∨ dist < bs.maxDist then
      let cands' := pqInsert (-dist, l) bs.cands
      let nbrs1 := pqInsert (dist, l) bs.nbrs
      let nbrs' := if buf < nbrs1.length then nbrs1.tail else nbrs1
      let maxd' := match nbrs' with
        | [] => bs.maxDist
        | x :: _ => x.1
      ⟨cands', nbrs', vis', maxd'⟩
    else { bs with vis := vis' }

/-- The beam-search main loop (`while (!candidates.empty())` of
`Index::beamSearch`), with explicit fuel. -/
def beamLoop (links : Nat → List Nat) (dq : Nat → D) (buf : Nat) :
    Nat → BeamSt D → BeamSt D
  | 0, bs => bs
  | fuel + 1, bs =>
    match bs.cands with
    | [] => bs
    | top :: rest =>
      if bs.maxDist < -top.1 then bs
      else
        beamLoop links dq buf fuel
          (List.foldl (beamExpand dq buf) { bs with cands := rest } (links top.2))

/-- Models `Index::beamSearch`: returns the result heap `W` as a list sorted
in decreasing (distance, node) order.  The fuel `curN + 2` bounds the loop:
every frontier push is paired with a fresh insertion into the visited set
(at most `curN` distinct in-range nodes plus the entry), and every iteration
pops one frontier entry. -/
def beamSearchNodes (st : IndexSt α β) (d : α → α → D) (q : α) (entry : Nat)
    (buf : Nat) : List (D × Nat) :=
  let dq : Nat → D := fun n => d q (st.dataOf n)
  let d0 := dq entry
  (beamLoop st.linksOf dq buf (st.curN + 2)
      ⟨[(-d0, entry)], [(d0, entry)], {entry}, d0⟩).nbrs

/-- The scan of `Index::selectNeighbors` over the ascending-distance
candidate queue: keep a candidate `c` iff no already-saved `a` satisfies
`dist(a, c) < dist(q, c)`, stopping once `M` are saved.  Entries carry
negated distances, as in the C++ candidate heap. -/
def selectLoop (dn : Nat → Nat → D) (M : Nat) :
    List (D × Nat) → List (D × Nat) → List (D × Nat)
  | [], saved => saved
  | c :: cs, saved =>
    if M ≤ saved.length then saved
    else if ∀ a ∈ saved, ¬ (dn a.2 c.2 < -c.1) then
      selectLoop dn M cs (saved ++ [c])
    else
      selectLoop dn M cs saved

/-- Draining a queue into the candidate queue while negating distances
(`candidates.emplace(-neighbors.top().first, …)`). -/
def pqDrainNeg (l : List (D × Nat)) : List (D × Nat) :=
  List.foldl (fun acc p => pqInsert (-p.1, p.2) acc) [] l

/-- Models `Index::selectNeighbors`: queues smaller than `M` pass through
unchanged; otherwise the candidates are scanned in ascending-distance order
by `selectLoop` and the survivors are re-inserted (with their original
distances) into the result queue. -/
def selectNeighborsPQ (dn : Nat → Nat → D) (nbrs : List (D × Nat)) (M : Nat) :
    List (D × Nat) :=
  if nbrs.length < M then nbrs
  else
    List.foldl (fun acc p => pqInsert (-p.1, p.2) acc) []
      (selectLoop dn M (pqDrainNeg nbrs) [])

/-- The back-linking step of `Index::connectNeighbors` for one selected
neighbor: consume a self-loop slot if one exists; otherwise re-prune the
saturated neighbor's links together with the new node and pad the link
region back to `M` entries with self-loops. -/
def backLinkFor (dn : Nat → Nat → D) (M : Nat) (nbrLinks : List Nat)
    (nbrId newId : Nat) : List Nat :=
  match nbrLinks.findIdx? (fun x => x == nbrId) with
  | some j => nbrLinks.set j newId
  | none =>
    let cands0 := pqInsert (dn nbrId newId, newId) ([] : List (D × Nat))
    let cands := List.foldl
      (fun acc l => if l = nbrId then acc else pqInsert (dn nbrId l, l) acc)
      cands0 nbrLinks
    let sel := selectNeighborsPQ dn cands M
    (sel.map (fun p => p.2) ++ List.replicate (M - sel.length) nbrId).take M

/-- The `while (neighbors.size() > 0)` loop of `Index::connectNeighbors`:
pop the selected neighbors (farthest first), write each into the new node's
next link slot (`i` clamps at `M`, where a write is out of range and
modelled as a no-op, matching the defensive clamp), then back-link. -/
def connectLoop (d : α → α → D) :
    List (D × Nat) → IndexSt α β → Nat → Nat → IndexSt α β
  | [], st, _, _ => st
  | (_, nbr) :: rest, st, i, newId =>
    let st1 := setLinks st newId ((st.linksOf newId).set i nbr)
    let dn : Nat → Nat → D := fun a b => d (st1.dataOf a) (st1.dataOf b)
    let st2 := setLinks st1 nbr (backLinkFor dn st1.M (st1.linksOf nbr) nbr newId)
    connectLoop d rest st2 (min (i + 1) st.M) newId

/-- Models `Index::add`: entry selection happens before allocation (on the
pre-insertion graph); a full index refuses the insertion; the freshly
allocated node is connected through beam search, heuristic selection and
back-linking — except for node id `0`, where the source returns `false`
after having allocated. -/
def addNode (d : α → α → D) (tf : α → α) (st : IndexSt α β) (v : α) (lbl : β)
    (efC numInit : Nat) : Bool × IndexSt α β :=
  let entry := pickEntryNode (fun n => d v (st.dataOf n)) st.curN numInit
  match allocateNode tf st v lbl with
  | none => (false, st)
  | some (st1, newId) =>
    if 0 < newId then
      let nbrs := beamSearchNodes st1 d v entry efC
      let sel := selectNeighborsPQ
        (fun a b => d (st1.dataOf a) (st1.dataOf b)) nbrs st1.M
      (true, connectLoop d sel st1 0 newId)
    else (false, st1)

/-- The `while (neighbors.size() > K)` trimming loop of `Index::search`:
repeatedly pop the farthest element (the head) until at most `K` remain. -/
def popToSize (K : Nat) : List (D × Nat) → List (D × Nat)
  | [] => []
  | x :: xs => if K < xs.length + 1 then popToSize K xs else x :: xs

/-- The beam `Index::search` computes before trimming: entry selection
followed by beam search with width `efS`. -/
def beamFromEntry (st : IndexSt α β) (d : α → α → D) (q : α)
    (efS numInit : Nat) : List (D × Nat) :=
  let entry := pickEntryNode (fun n => d q (st.dataOf n)) st.curN numInit
  beamSearchNodes st d q entry efS

/-- The result beam of `Index::search` after entry selection, beam search
with width `efS` and trimming to the `K` closest entries. -/
def searchKeptNodes (st : IndexSt α β) (d : α → α → D) (q : α)
    (K efS numInit : Nat) : List (D × Nat) :=
  popToSize K (beamFromEntry st d q efS numInit)

/-- The comparator of the final `std::sort` of `Index::search`: compare
result pairs by distance only. -/
def distLe {D γ : Type} [LinearOrder D] (a b : D × γ) : Prop := a.1 ≤ b.1

instance {D γ : Type} [LinearOrder D] : DecidableRel (@distLe D γ _) :=
  fun a b => by unfold distLe; infer_instance

instance {D γ : Type} [LinearOrder D] : IsTotal (D × γ) distLe where
  total a b := le_total a.1 b.1

instance {D γ : Type} [LinearOrder D] : IsTrans (D × γ) distLe where
  trans _ _ _ hab hbc := le_trans hab hbc

/-- Models `Index::search`: attach labels to the trimmed beam and sort by
ascending distance (`std::sort` with a distance-only comparator; ties are
ordered arbitrarily by the source, here stably). -/
def searchResults (st : IndexSt α β) (d : α → α → D) (q : α)
    (K efS numInit : Nat) : List (D × β) :=
  List.insertionSort distLe
    ((searchKeptNodes st d q K efS numInit).map (fun p => (p.1, st.labelOf p.2)))

/-- Exchange of two node records through the scratch buffer
(`Index::swapNodes`). -/
def swapMem (mem : Nat → GNode α β) (a b : Nat) : Nat → GNode α β :=
  fun i => if i = a then mem b else if i = b then mem a else mem i

/-- Step 1 of `Index::relabel`: replace each link slot value `l` of every
allocated node with `P l`. -/
def rewireLinks (P : Nat → Nat) (st : IndexSt α β) : IndexSt α β :=
  { st with
      mem := fun n =>
        if n < st.curN then { st.mem n with links := (st.mem n).links.map P }
        else st.mem n }

/-- The inner `while (!visited[dest])` cycle walk of `Index::relabel`
step 2, with explicit fuel: mark `dest`, advance it to `P dest`, swap the
records at the cycle start `n` and at the new `dest`. -/
def cycleWalk (P : Nat → Nat) (n : Nat) :
    Nat → (Nat → GNode α β) → Finset Nat → Nat → ((Nat → GNode α β) × Finset Nat)
  | 0, mem, vis, _ => (mem, vis)
  | fuel + 1, mem, vis, dest =>
    if dest ∈ vis then (mem, vis)
    else cycleWalk P n fuel (swapMem mem n (P dest)) (insert dest vis) (P dest)

/-- One iteration of the outer `for` loop of `Index::relabel` step 2: skip
already-relocated nodes, otherwise swap `n` with `P n`, mark `n`, and walk
its cycle. -/
def relocateStep (P : Nat → Nat) (N : Nat)
    (s : (Nat → GNode α β) × Finset Nat) (n : Nat) :
    (Nat → GNode α β) × Finset Nat :=
  if n ∈ s.2 then s
  else cycleWalk P n N (swapMem s.1 n (P n)) (insert n s.2) (P n)

/-- Step 2 of `Index::relabel`: for each not-yet-relocated node `n`, swap it
with `P n`, mark it, and walk its cycle.  The fuel `curN` bounds each walk:
every iteration marks one fresh node of `[0, curN)` visited. -/
def relocateAll (P : Nat → Nat) (curN : Nat) (mem0 : Nat → GNode α β) :
    Nat → GNode α β :=
  ((List.range curN).foldl (relocateStep P curN) (mem0, ∅)).1

/-- The forward orbit `x, P x, P² x, …` of length `m`; a proof-support
description of the id cycles `Index::relabel` step 2 walks. -/
def orbitList (P : Nat → Nat) : Nat → Nat → List Nat
  | _, 0 => []
  | x, k + 1 => x :: orbitList P (P x) k

/-- Models `Index::relabel`: rewire all link regions through `P`, then
permute the node records in place by cycle-following. -/
def permuteIndex (P : Nat → Nat) (st : IndexSt α β) : IndexSt α β :=
  let st1 := rewireLinks P st
  { st1 with mem := relocateAll P st1.curN st1.mem }

/-- A decidable statement that `P` restricts to a bijection of `[0, N)`,
the contract the reordering permutation generators provide to
`Index::relabel`. -/
def BijOnRange (P : Nat → Nat) (N : Nat) : Prop :=
  (∀ i, i < N → P i < N) ∧
  (∀ i, i < N → ∀ j, j < N → P i = P j → i = j) ∧
  (∀ k, k < N → ∃ i, i < N ∧ P i = k)

instance (P : Nat → Nat) (N : Nat) : Decidable (BijOnRange P N) := by
  unfold BijOnRange; infer_instance

/-- The degree-saturation / link-validity invariant (§8 of the spec): every
allocated node has exactly `M` link slots, each a self-loop or an allocated
node id. -/
def LinksWF (st : IndexSt α β) : Prop :=
  ∀ n, n < st.curN →
    (st.linksOf n).length = st.M ∧ ∀ l ∈ st.linksOf n, l = n ∨ l < st.curN

instance (st : IndexSt α β) [DecidableEq α] [DecidableEq β] :
    Decidable (LinksWF st) := by
  unfold LinksWF; infer_instance

/-- The states reachable from `create` by any sequence of insertions and
reorderings.  The reordering permutation generators (`g_order`, `rcm_order`
in util/reordering.h, outside the sources at hand) are modelled from the
spec as producing an arbitrary bijection of the allocated id range, fed
verbatim to `Index::relabel`. -/
inductive Reachable (d : α → α → D) (tf : α → α) : IndexSt α β → Prop
  | create (M maxN : Nat) (mem0 : Nat → GNode α β) :
      Reachable d tf ⟨M, maxN, 0, mem0⟩
  | insertStep (st : IndexSt α β) (v : α) (lbl : β) (efC numInit : Nat) :
      Reachable d tf st → Reachable d tf (addNode d tf st v lbl efC numInit).2
  | reorderStep (st : IndexSt α β) (P : Nat → Nat) :
      Reachable d tf st → BijOnRange P st.curN →
      Reachable d tf (permuteIndex P st)

end Engine

section Serialization

/-!
Byte-level model of `Index::serialize` / `Index::loadIndex` for the
raw-vector configuration.  `cereal::BinaryOutputArchive` on the reference
x86-64 platform writes each `size_t` field as 8 little-endian bytes and a
`binary_data` block verbatim, and emits no header or magic of its own.
Modelled from the spec: the `ExplicitSet` visited-set scratch (not among
the sources at hand) serializes as its capacity, one `u64` per the spec's
serialized-format section, and `_distance->dimension()` is a `u64`.
-/

/-- An index as it appears to the serializer: the seven metadata fields of
`Index::serialize` plus the raw node block and the query scratch buffer. -/
structure SerialIndex where
  mGraph : Nat
  dataSize : Nat
  nodeSize : Nat
  maxN : Nat
  curN : Nat
  dim : Nat
  visitedCap : Nat
  memoryBlock : List Nat
  queryScratch : List Nat
deriving DecidableEq

/-- `k` little-endian base-256 digits of `v`. -/
def leBytes : Nat → Nat → List Nat
  | 0, _ => []
  | k + 1, v => v % 256 :: leBytes k (v / 256)

/-- One `u64` as written by the binary archive. -/
def le64 (v : Nat) : List Nat := leBytes 8 v

/-- Value of a little-endian digit list. -/
def beVal : List Nat → Nat
  | [] => 0
  | b :: bs => b + 256 * beVal bs

/-- Read one `u64` from the head of a byte stream. -/
def readU64 (bs : List Nat) : Nat := beVal (bs.take 8)

/-- Models `Index::serialize` (the saving direction of `saveIndex`): the
seven metadata fields in archive order, then the node block, then the
query scratch. -/
def serializeIndex (s : SerialIndex) : List Nat :=
  le64 s.mGraph ++ le64 s.dataSize ++ le64 s.nodeSize ++ le64 s.maxN ++
    le64 s.curN ++ le64 s.dim ++ le64 s.visitedCap ++
    s.memoryBlock ++ s.queryScratch

/-- Models `Index::loadIndex`: read the seven metadata fields in order,
then `nodeSize · maxN` bytes of node block, then `dataSize` bytes of query
scratch; a truncated stream fails. -/
def loadIndexBytes (bs : List Nat) : Option SerialIndex :=
  if 56 ≤ bs.length then
    let mG := readU64 bs
    let ds := readU64 (bs.drop 8)
    let ns := readU64 (bs.drop 16)
    let mn := readU64 (bs.drop 24)
    let cn := readU64 (bs.drop 32)
    let dm := readU64 (bs.drop 40)
    let vc := readU64 (bs.drop 48)
    let rest := bs.drop 56
    if ns * mn + ds ≤ rest.length then
      some ⟨mG, ds, ns, mn, cn, dm, vc, rest.take (ns * mn),
            (rest.drop (ns * mn)).take ds⟩
    else none
  else none

/-- Well-formedness of a serializable index: `size_t` fields fit in 64 bits
and the two buffers have the sizes `Index`'s constructor allocates. -/
def SerialWF (s : SerialIndex) : Prop :=
  s.mGraph < 2 ^ 64 ∧ s.dataSize < 2 ^ 64 ∧ s.nodeSize < 2 ^ 64 ∧
    s.maxN < 2 ^ 64 ∧ s.curN < 2 ^ 64 ∧ s.dim < 2 ^ 64 ∧
    s.visitedCap < 2 ^ 64 ∧
    s.memoryBlock.length = s.nodeSize * s.maxN ∧
    s.queryScratch.length = s.dataSize

instance (s : SerialIndex) : Decidable (SerialWF s) := by
  unfold SerialWF; infer_instance

/-- The layout the spec's serialized-format section asserts: a leading
`u64` magic number before the metadata fields. -/
def ClaimedMagicFormat (s : SerialIndex) (bs : List Nat) : Prop :=
  ∃ magic : Nat, bs =
    le64 magic ++ le64 s.mGraph ++ le64 s.dataSize ++ le64 s.nodeSize ++
      le64 s.maxN ++ le64 s.curN ++ le64 s.dim ++ le64 s.visitedCap ++
      s.memoryBlock ++ s.queryScratch

end Serialization

section DistanceKernels

/-!
The SIMD distance kernels, modelled over ℚ.  A 16-lane kernel accumulates
over the largest multiple of 16 at most `dim` (`dimension >> 4 << 4`); the
lane-parallel accumulation order is flattened here, which over ℚ is exact
(the spec itself only requires agreement up to floating-point
reassociation).
-/

/-- Partial dot product `Σ_{i < m} x_i · y_i` as accumulated by the
inner-product kernels. -/
def sumProdTo (x y : List ℚ) : Nat → ℚ
  | 0 => 0
  | m + 1 => sumProdTo x y m + x.getD m 0 * y.getD m 0

/-- Partial squared-distance sum `Σ_{i < m} (x_i − y_i)²` as accumulated by
the squared-L2 kernels. -/
def sumSqDiffTo (x y : List ℚ) : Nat → ℚ
  | 0 => 0
  | m + 1 => sumSqDiffTo x y m + (x.getD m 0 - y.getD m 0) * (x.getD m 0 - y.getD m 0)

/-- Models `distanceImplInnerProductSIMD16ExtAVX`: `1 − Σ x_i · y_i` over
the 16-aligned prefix of the dimension. -/
def distanceIPSIMD16 (x y : List ℚ) (dim : Nat) : ℚ :=
  1 - sumProdTo x y (dim / 16 * 16)

/-- Models `distanceImplSquaredL2SIMD16ExtSSE`: `Σ (x_i − y_i)²` over the
16-aligned prefix of the dimension. -/
def distanceL2SIMD16 (x y : List ℚ) (dim : Nat) : ℚ :=
  sumSqDiffTo x y (dim / 16 * 16)

end DistanceKernels

section CentroidTrainer

/-!
The D²-weighting loop of `CentroidsGenerator::kmeansPlusPlusInitialize`
(lines 199–229).  Data and centroids are flat row-major ℚ arrays of `dim`
columns, as in the source.
-/

/-- Squared distance between row `ai` of flat array `a` and row `bi` of
flat array `b`, accumulating `(a[ai·dim+j] − b[bi·dim+j])²` for `j < m`. -/
def sqDistRows (a : List ℚ) (ai : Nat) (b : List ℚ) (bi : Nat) (dim : Nat) :
    Nat → ℚ
  | 0 => 0
  | j + 1 =>
    sqDistRows a ai b bi dim j +
      (a.getD (ai * dim + j) 0 - b.getD (bi * dim + j) 0) *
        (a.getD (ai * dim + j) 0 - b.getD (bi * dim + j) 0)

/-- Minimum of a scan that starts at `DBL_MAX`: for a nonempty list this is
the list minimum (the empty case cannot arise, `cent_idx ≥ 1`). -/
def minOverList : List ℚ → ℚ
  | [] => 0
  | x :: xs => xs.foldl min x

/-- The weight the source computes for point `i` when choosing centroid
`centIdx`: as written (line 208), the data row is indexed by the centroid
counter `c`, not by `i`, so the value is
`min_{c < centIdx} ‖centroids[c] − data[c]‖²` and does not depend on `i`. -/
def kmppWeightCode (data cents : List ℚ) (dim centIdx i : Nat) : ℚ :=
  minOverList
    ((List.range centIdx).map (fun c => sqDistRows cents c data c dim dim))

/-- Modelled from the spec: the intended D² weight of point `i` — the
squared distance between data row `i` and its nearest already-chosen
centroid, `min_{c < centIdx} ‖centroids[c] − data[i]‖²`. -/
def kmppWeightIntended (data cents : List ℚ) (dim centIdx i : Nat) : ℚ :=
  minOverList
    ((List.range centIdx).map (fun c => sqDistRows cents c data i dim dim))

/-- The threshold scan choosing the next centroid (lines 222–229): the
first index whose cumulative weight reaches the sampled threshold, or `n`
when the loop runs off the end. -/
def kmppPickIdxAux : List ℚ → ℚ → ℚ → Nat → Nat
  | [], _, _, k => k
  | w :: ws, acc, t, k =>
    if t ≤ acc + w then k else kmppPickIdxAux ws (acc + w) t (k + 1)

/-- Centroid-index selection given the per-point weights and the sampled
threshold. -/
def kmppPickIdx (ws : List ℚ) (t : ℚ) : Nat := kmppPickIdxAux ws 0 t 0

end CentroidTrainer

section WitnessData

/-- A concrete squared-difference distance on ℤ used by witnesses. -/
def dInt : ℤ → ℤ → ℤ := fun a b => (a - b) * (a - b)

/-- Empty two-slot index over ℤ data and ℕ labels. -/
def stC1 : IndexSt ℤ Nat := ⟨2, 4, 0, fun _ => ⟨0, [], 0⟩⟩

/-- Concrete node-to-node distance for the selection counterexample:
points 0, 1, 2 on the line. -/
def dnEx : Nat → Nat → ℤ := fun a b =>
  dInt (([0, 1, 2] : List ℤ).getD a 0) (([0, 1, 2] : List ℤ).getD b 0)

/-- A three-node index whose links form a path, for the relabeling witness. -/
def stP5 : IndexSt ℤ Nat := ⟨2, 3, 3, fun i =>
  if i = 0 then ⟨10, [1, 0], 100⟩
  else if i = 1 then ⟨11, [0, 2], 101⟩
  else if i = 2 then ⟨12, [1, 2], 102⟩
  else ⟨0, [], 0⟩⟩

/-- The cyclic permutation 0 ↦ 1 ↦ 2 ↦ 0 for the relabeling witness. -/
def permC5 : Nat → Nat := fun i => ([1, 2, 0] : List Nat).getD i i

/-- A three-node index over ℤ built by three insertions, for the search
witness. -/
def stC8 : IndexSt ℤ Nat :=
  (addNode dInt id
    (addNode dInt id
      (addNode dInt id ⟨2, 4, 0, fun _ => ⟨0, [], 0⟩⟩ 5 7 3 100).2
      6 8 3 100).2
    4 9 3 100).2


/-- A three-node index over ℤ built by three insertions (the first hits the
node-0 refusal yet allocates), for the invariant witness. -/
def stC4 : IndexSt ℤ Nat :=
  (addNode dInt id
    (addNode dInt id
      (addNode dInt id ⟨2, 4, 0, fun _ => ⟨0, [], 0⟩⟩ 5 7 3 1).2
      9 8 3 1).2
    1 6 3 1).2

/-- The cyclic permutation 0 ↦ 2 ↦ 1 ↦ 0 for the invariant witness. -/
def permC4 : Nat → Nat := fun i => ([2, 0, 1] : List Nat).getD i i

/-- Concrete serializable index for the save/load witness. -/
def sC6 : SerialIndex := ⟨2, 4, 16, 3, 2, 1, 4, List.replicate 48 7, [1, 2, 3, 4]⟩

/-- Concrete serializable index for the layout witness. -/
def sC7 : SerialIndex := ⟨3, 8, 24, 2, 1, 2, 3, List.replicate 48 9, List.replicate 8 5⟩

/-- Serializable index with empty buffers, whose 56-byte stream refutes the
leading-magic layout. -/
def sC7bad : SerialIndex := ⟨1, 0, 0, 0, 0, 0, 0, [], []⟩

/-- Sixteen-dimensional vector (2, 0, …, 0) whose self inner-product
exceeds 1. -/
def exNeg : List ℚ := 2 :: List.replicate 15 0

/-- Sixteen-dimensional unit vector (1, 0, …, 0). -/
def exUnit : List ℚ := 1 :: List.replicate 15 0

end WitnessData

/-! ## Helper lemmas: serialization -/

theorem leBytes_length (k v : Nat) : (leBytes k v).length = k := by
  induction k generalizing v with
  | zero => simp [leBytes]
  | succ k ih => simp [leBytes, ih]

theorem le64_length (v : Nat) : (le64 v).length = 8 := leBytes_length 8 v

theorem beVal_leBytes (k v : Nat) (h : v < 256 ^ k) : beVal (leBytes k v) = v := by
  induction k generalizing v with
  | zero => simp at h; simp [leBytes, beVal, h]
  | succ k ih =>
    have hq : v / 256 < 256 ^ k := by
      rw [Nat.div_lt_iff_lt_mul (by norm_num : 0 < 256)]
      calc v < 256 ^ (k + 1) := h
        _ = 256 ^ k * 256 := by ring
    simp [leBytes, beVal, ih (v / 256) hq]
    omega

theorem readU64_le64_append (v : Nat) (rest : List Nat) (h : v < 2 ^ 64) :
    readU64 (le64 v ++ rest) = v := by
  unfold readU64
  rw [show (8 : Nat) = (le64 v).length from (le64_length v).symm, List.take_left]
  exact beVal_leBytes 8 v (by norm_num at h ⊢; omega)

theorem drop8_le64_append (v : Nat) (rest : List Nat) :
    (le64 v ++ rest).drop 8 = rest := by
  rw [show (8 : Nat) = (le64 v).length from (le64_length v).symm, List.drop_left]

/-! ## C6 and C7 -/

/-- Field-extraction lemma for the serialized stream: each metadata field
sits at its 8-byte offset and the two buffers follow at offset 56. -/
theorem serializeIndex_reads (s : SerialIndex) (h : SerialWF s) :
    readU64 (serializeIndex s) = s.mGraph ∧
    readU64 ((serializeIndex s).drop 8) = s.dataSize ∧
    readU64 ((serializeIndex s).drop 16) = s.nodeSize ∧
    readU64 ((serializeIndex s).drop 24) = s.maxN ∧
    readU64 ((serializeIndex s).drop 32) = s.curN ∧
    readU64 ((serializeIndex s).drop 40) = s.dim ∧
    readU64 ((serializeIndex s).drop 48) = s.visitedCap ∧
    (serializeIndex s).drop 56 = s.memoryBlock ++ s.queryScratch ∧
    56 ≤ (serializeIndex s).length := by
  obtain ⟨h1, h2, h3, h4, h5, h6, h7, hm, hq⟩ := h
  have e0 : serializeIndex s =
      le64 s.mGraph ++ (le64 s.dataSize ++ (le64 s.nodeSize ++ (le64 s.maxN ++
        (le64 s.curN ++ (le64 s.dim ++ (le64 s.visitedCap ++
          (s.memoryBlock ++ s.queryScratch))))))) := by
    simp [serializeIndex, List.append_assoc]
  have d1 : (serializeIndex s).drop 8 =
      le64 s.dataSize ++ (le64 s.nodeSize ++ (le64 s.maxN ++ (le64 s.curN ++
        (le64 s.dim ++ (le64 s.visitedCap ++ (s.memoryBlock ++ s.queryScratch)))))) := by
    rw [e0, drop8_le64_append]
  have d2 : ((serializeIndex s).drop 8).drop 8 =
      le64 s.nodeSize ++ (le64 s.maxN ++ (le64 s.curN ++
        (le64 s.dim ++ (le64 s.visitedCap ++ (s.memoryBlock ++ s.queryScratch))))) := by
    rw [d1, drop8_le64_append]
  have d3 : (((serializeIndex s).drop 8).drop 8).drop 8 =
      le64 s.maxN ++ (le64 s.curN ++ (le64 s.dim ++ (le64 s.visitedCap ++
        (s.memoryBlock ++ s.queryScratch)))) := by
    rw [d2, drop8_le64_append]
  have d4 : ((((serializeIndex s).drop 8).drop 8).drop 8).drop 8 =
      le64 s.curN ++ (le64 s.dim ++ (le64 s.visitedCap ++
        (s.memoryBlock ++ s.queryScratch))) := by
    rw [d3, drop8_le64_append]
  have d5 : (((((serializeIndex s).drop 8).drop 8).drop 8).drop 8).drop 8 =
      le64 s.dim ++ (le64 s.visitedCap ++ (s.memoryBlock ++ s.queryScratch)) := by
    rw [d4, drop8_le64_append]
  have d6 : ((((((serializeIndex s).drop 8).drop 8).drop 8).drop 8).drop 8).drop 8 =
      le64 s.visitedCap ++ (s.memoryBlock ++ s.queryScratch) := by
    rw [d5, drop8_le64_append]
  have d7 : (((((((serializeIndex s).drop 8).drop 8).drop 8).drop 8).drop 8).drop 8).drop 8 =
      s.memoryBlock ++ s.queryScratch := by
    rw [d6, drop8_le64_append]
  have dd : ∀ l : List Nat, ∀ a b : Nat, l.drop (a + b) = (l.drop a).drop b := by
    intro l a b; rw [List.drop_drop, Nat.add_comm]
  have e8 : (serializeIndex s).drop 16 = ((serializeIndex s).drop 8).drop 8 :=
    dd _ 8 8
  have e16 : (serializeIndex s).drop 24 =
      (((serializeIndex s).drop 8).drop 8).drop 8 := by
    rw [show (24 : Nat) = 8 + 8 + 8 by norm_num, dd _ (8 + 8) 8, dd _ 8 8]
  have e24 : (serializeIndex s).drop 32 =
      ((((serializeIndex s).drop 8).drop 8).drop 8).drop 8 := by
    rw [show (32 : Nat) = 8 + 8 + 8 + 8 by norm_num, dd _ (8 + 8 + 8) 8,
      dd _ (8 + 8) 8, dd _ 8 8]
  have e32 : (serializeIndex s).drop 40 =
      (((((serializeIndex s).drop 8).drop 8).drop 8).drop 8).drop 8 := by
    rw [show (40 : Nat) = 8 + 8 + 8 + 8 + 8 by norm_num, dd _ (8 + 8 + 8 + 8) 8,
      dd _ (8 + 8 + 8) 8, dd _ (8 + 8) 8, dd _ 8 8]
  have e40 : (serializeIndex s).drop 48 =
      ((((((serializeIndex s).drop 8).drop 8).drop 8).drop 8).drop 8).drop 8 := by
    rw [show (48 : Nat) = 8 + 8 + 8 + 8 + 8 + 8 by norm_num,
      dd _ (8 + 8 + 8 + 8 + 8) 8, dd _ (8 + 8 + 8 + 8) 8, dd _ (8 + 8 + 8) 8,
      dd _ (8 + 8) 8, dd _ 8 8]
  have e48 : (serializeIndex s).drop 56 =
      (((((((serializeIndex s).drop 8).drop 8).drop 8).drop 8).drop 8).drop 8).drop 8 := by
    rw [show (56 : Nat) = 8 + 8 + 8 + 8 + 8 + 8 + 8 by norm_num,
      dd _ (8 + 8 + 8 + 8 + 8 + 8) 8, dd _ (8 + 8 + 8 + 8 + 8) 8,
      dd _ (8 + 8 + 8 + 8) 8, dd _ (8 + 8 + 8) 8, dd _ (8 + 8) 8, dd _ 8 8]
  refine ⟨?_, ?_, ?_, ?_, ?_, ?_, ?_, ?_, ?_⟩
  · rw [e0, readU64_le64_append _ _ h1]
  · rw [d1, readU64_le64_append _ _ h2]
  · rw [e8, d2, readU64_le64_append _ _ h3]
  · rw [e16, d3, readU64_le64_append _ _ h4]
  · rw [e24, d4, readU64_le64_append _ _ h5]
  · rw [e32, d5, readU64_le64_append _ _ h6]
  · rw [e40, d6, readU64_le64_append _ _ h7]
  · rw [e48, d7]
  · rw [e0]; simp [le64_length]; omega

/-- C6: saving and loading roundtrips: the loaded index has the same seven
metadata fields and a byte-for-byte equal node block and query scratch. -/
theorem C6_save_load_roundtrip (s : SerialIndex) (h : SerialWF s) :
    loadIndexBytes (serializeIndex s) = some s := by
  obtain ⟨r0, r1, r2, r3, r4, r5, r6, r7, hlen⟩ := serializeIndex_reads s h
  obtain ⟨h1, h2, h3, h4, h5, h6, h7, hm, hq⟩ := h
  have hrest : readU64 ((serializeIndex s).drop 16) * readU64 ((serializeIndex s).drop 24) +
      readU64 ((serializeIndex s).drop 8) ≤ ((serializeIndex s).drop 56).length := by
    rw [r1, r2, r3, r7]
    simp [hm, hq]
  unfold loadIndexBytes
  rw [if_pos hlen, if_pos hrest, r0, r1, r2, r3, r4, r5, r6, r7]
  have tk : (s.memoryBlock ++ s.queryScratch).take (s.nodeSize * s.maxN) = s.memoryBlock := by
    rw [← hm, List.take_left]
  have dr : (s.memoryBlock ++ s.queryScratch).drop (s.nodeSize * s.maxN) = s.queryScratch := by
    rw [← hm, List.drop_left]
  rw [tk, dr, ← hq, List.take_length, hq]

/-- C6 witness at a concrete index. -/
theorem C6_save_load_roundtrip_witness :
    SerialWF sC6 ∧ loadIndexBytes (serializeIndex sC6) = some sC6 :=
  ⟨by decide, C6_save_load_roundtrip sC6 (by decide)⟩

/-- C7 counterexample: the serialized stream of a concrete index does not
begin with a `u64` magic number followed by the metadata — the stream is
56 bytes where the claimed layout requires 64. -/
theorem C7_no_magic_counterexample :
    ¬ ClaimedMagicFormat sC7bad (serializeIndex sC7bad) := by
  rintro ⟨magic, h⟩
  have hl := congrArg List.length h
  simp [serializeIndex, sC7bad, le64_length, List.length_append] at hl

/-- C7 amended: the stream is little-endian with no magic number; the seven
`u64` metadata fields `M_graph`, `data_size_bytes`, `record_size_bytes`,
`N_max`, `cur_N`, `D`, `visited_capacity` start at offset 0, followed by the
raw node block and the query scratch. -/
theorem C7_layout_amended (s : SerialIndex) (h : SerialWF s) :
    readU64 (serializeIndex s) = s.mGraph ∧
    readU64 ((serializeIndex s).drop 8) = s.dataSize ∧
    readU64 ((serializeIndex s).drop 16) = s.nodeSize ∧
    readU64 ((serializeIndex s).drop 24) = s.maxN ∧
    readU64 ((serializeIndex s).drop 32) = s.curN ∧
    readU64 ((serializeIndex s).drop 40) = s.dim ∧
    readU64 ((serializeIndex s).drop 48) = s.visitedCap ∧
    ((serializeIndex s).drop 56).take (s.nodeSize * s.maxN) = s.memoryBlock ∧
    ((serializeIndex s).drop 56).drop (s.nodeSize * s.maxN) = s.queryScratch := by
  obtain ⟨r0, r1, r2, r3, r4, r5, r6, r7, hlen⟩ := serializeIndex_reads s h
  obtain ⟨h1, h2, h3, h4, h5, h6, h7, hm, hq⟩ := h
  refine ⟨r0, r1, r2, r3, r4, r5, r6, ?_, ?_⟩
  · rw [r7, ← hm, List.take_left]
  · rw [r7, ← hm, List.drop_left]

/-- C7 witness at a concrete index. -/
theorem C7_layout_amended_witness :
    SerialWF sC7 ∧ readU64 (serializeIndex sC7) = sC7.mGraph :=
  ⟨by decide, (C7_layout_amended sC7 (by decide)).1⟩

/-! ## C9: distance kernels -/

theorem sumProdTo_eq_range (x y : List ℚ) (m : Nat) :
    sumProdTo x y m =
      ((List.range m).map (fun i => x.getD i 0 * y.getD i 0)).sum := by
  induction m with
  | zero => simp [sumProdTo]
  | succ m ih => simp [sumProdTo, List.range_succ, ih]

theorem sumSqDiffTo_eq_range (x y : List ℚ) (m : Nat) :
    sumSqDiffTo x y m =
      ((List.range m).map
        (fun i => (x.getD i 0 - y.getD i 0) * (x.getD i 0 - y.getD i 0))).sum := by
  induction m with
  | zero => simp [sumSqDiffTo]
  | succ m ih => simp [sumSqDiffTo, List.range_succ, ih]

theorem sumSqDiffTo_nonneg (x y : List ℚ) (m : Nat) : 0 ≤ sumSqDiffTo x y m := by
  induction m with
  | zero => simp [sumSqDiffTo]
  | succ m ih => exact add_nonneg ih (mul_self_nonneg _)

theorem sumProdTo_eq_zip :
    ∀ x y : List ℚ, y.length = x.length →
      sumProdTo x y x.length = (List.zipWith (fun a b => a * b) x y).sum
  | [], [], _ => by simp [sumProdTo]
  | [], _ :: _, h => by simp at h
  | _ :: _, [], h => by simp at h
  | a :: xs, b :: ys, h => by
    have ih := sumProdTo_eq_zip xs ys (by simpa using h)
    rw [sumProdTo_eq_range] at ih ⊢
    simp only [List.length_cons, List.range_succ_eq_map, List.map_cons,
      List.map_map, List.sum_cons, List.zipWith_cons_cons, Function.comp_def,
      List.getD_cons_succ, List.getD_cons_zero, Nat.succ_eq_add_one]
    rw [ih]

theorem sumSqDiffTo_eq_zip :
    ∀ x y : List ℚ, y.length = x.length →
      sumSqDiffTo x y x.length =
        (List.zipWith (fun a b => (a - b) * (a - b)) x y).sum
  | [], [], _ => by simp [sumSqDiffTo]
  | [], _ :: _, h => by simp at h
  | _ :: _, [], h => by simp at h
  | a :: xs, b :: ys, h => by
    have ih := sumSqDiffTo_eq_zip xs ys (by simpa using h)
    rw [sumSqDiffTo_eq_range] at ih ⊢
    simp only [List.length_cons, List.range_succ_eq_map, List.map_cons,
      List.map_map, List.sum_cons, List.zipWith_cons_cons, Function.comp_def,
      List.getD_cons_succ, List.getD_cons_zero, Nat.succ_eq_add_one]
    rw [ih]

/-- C9 counterexample: the angular kernel is negative at the pair of equal
vectors (2, 0, …, 0) of dimension 16. -/
theorem C9_ip_negative_counterexample :
    distanceIPSIMD16 exNeg exNeg 16 = -3 ∧ distanceIPSIMD16 exNeg exNeg 16 < 0 := by
  constructor <;> norm_num [distanceIPSIMD16, sumProdTo, exNeg]

/-- C9 amended: on `D`-dimensional buffers with `16 ∣ D`, the squared-L2
kernel computes `Σ (x_i − y_i)²` and is nonnegative; the angular kernel
computes `1 − Σ x_i·y_i`, which is nonnegative only when `Σ x_i·y_i ≤ 1`
(e.g. for unit-normalized inputs), and can be negative otherwise. -/
theorem C9_kernels_amended (x y : List ℚ) (dim : Nat) (hx : x.length = dim)
    (hy : y.length = dim) (h16 : dim % 16 = 0) :
    distanceL2SIMD16 x y dim =
      (List.zipWith (fun a b => (a - b) * (a - b)) x y).sum ∧
    0 ≤ distanceL2SIMD16 x y dim ∧
    distanceIPSIMD16 x y dim = 1 - (List.zipWith (fun a b => a * b) x y).sum ∧
    ((List.zipWith (fun a b => a * b) x y).sum ≤ 1 →
      0 ≤ distanceIPSIMD16 x y dim) := by
  have hdim : dim / 16 * 16 = dim := Nat.div_mul_cancel (Nat.dvd_of_mod_eq_zero h16)
  have hlen : y.length = x.length := hy.trans hx.symm
  have hl2 : distanceL2SIMD16 x y dim =
      (List.zipWith (fun a b => (a - b) * (a - b)) x y).sum := by
    unfold distanceL2SIMD16
    rw [hdim, ← hx, sumSqDiffTo_eq_zip x y hlen]
  have hip : distanceIPSIMD16 x y dim =
      1 - (List.zipWith (fun a b => a * b) x y).sum := by
    unfold distanceIPSIMD16
    rw [hdim, ← hx, sumProdTo_eq_zip x y hlen]
  refine ⟨hl2, ?_, hip, ?_⟩
  · unfold distanceL2SIMD16
    exact sumSqDiffTo_nonneg x y _
  · intro hle
    rw [hip]
    linarith

/-- C9 witness at the unit vector (1, 0, …, 0). -/
theorem C9_kernels_amended_witness :
    exUnit.length = 16 ∧ 0 ≤ distanceL2SIMD16 exUnit exUnit 16 :=
  ⟨by decide, (C9_kernels_amended exUnit exUnit 16 (by decide) (by decide)
    (by decide)).2.1⟩

/-! ## C3: k-means++ weighting -/

/-- C3: at the dataset (0), (10) in dimension 1 with first centroid (0), the
source's weight loop gives every point weight 0 (its distance term indexes
the data row by the centroid counter), so the threshold scan re-picks point
0; the intended D² weighting gives point 1 weight 100. -/
theorem C3_kmpp_weight_defect :
    kmppWeightCode [0, 10] [0] 1 1 0 = 0 ∧
    kmppWeightCode [0, 10] [0] 1 1 1 = 0 ∧
    kmppWeightIntended [0, 10] [0] 1 1 1 = 100 ∧
    kmppWeightCode [0, 10] [0] 1 1 1 ≠ kmppWeightIntended [0, 10] [0] 1 1 1 ∧
    kmppPickIdx [kmppWeightCode [0, 10] [0] 1 1 0,
      kmppWeightCode [0, 10] [0] 1 1 1] 0 = 0 := by
  refine ⟨?_, ?_, ?_, ?_, ?_⟩ <;>
    norm_num [kmppWeightCode, kmppWeightIntended, minOverList, sqDistRows,
      List.range_succ, kmppPickIdx, kmppPickIdxAux]

/-! ## C1: insertion return value -/

/-- C1: inserting into an empty (far from full) index returns `false` and
still allocates — `cur_N` becomes 1 — contradicting "false iff full, no
mutation on a false return, cur_N counts successful insertions". -/
theorem C1_first_insert_false_yet_allocates :
    stC1.curN = 0 ∧ stC1.curN < stC1.maxN ∧
    (addNode dInt id stC1 5 7 3 100).1 = false ∧
    (addNode dInt id stC1 5 7 3 100).2.curN = 1 := by decide

/-! ## Priority-queue permutation lemmas -/

theorem foldl_pqInsert_perm {D : Type} [LinearOrder D] (f : D × Nat → D × Nat) :
    ∀ l acc : List (D × Nat),
      List.Perm (List.foldl (fun a p => pqInsert (f p) a) acc l) (l.map f ++ acc)
  | [], acc => by simp
  | a :: l, acc => by
    simp only [List.foldl_cons, List.map_cons, List.cons_append]
    have p1 := foldl_pqInsert_perm f l (pqInsert (f a) acc)
    have p2 : List.Perm (l.map f ++ pqInsert (f a) acc) (l.map f ++ (f a :: acc)) :=
      List.Perm.append_left _ (List.perm_orderedInsert _ _ _)
    exact p1.trans (p2.trans List.perm_middle)

theorem pqDrainNeg_perm {D : Type} [LinearOrder D] [Neg D]
    (l : List (D × Nat)) :
    List.Perm (pqDrainNeg l) (l.map (fun p => (-p.1, p.2))) := by
  have h := foldl_pqInsert_perm (fun p : D × Nat => (-p.1, p.2)) l []
  simpa [pqDrainNeg] using h

/-! ## selectNeighbors lemmas -/

theorem selectLoop_eq_append {D : Type} [LinearOrder D] [Neg D]
    (dn : Nat → Nat → D) (M : Nat) :
    ∀ cs saved : List (D × Nat), ∃ ext, selectLoop dn M cs saved = saved ++ ext
  | [], saved => ⟨[], by simp [selectLoop]⟩
  | c :: cs, saved => by
    by_cases h1 : M ≤ saved.length
    · exact ⟨[], by simp [selectLoop, h1]⟩
    · by_cases h2 : ∀ a ∈ saved, ¬ (dn a.2 c.2 < -c.1)
      · obtain ⟨ext, he⟩ := selectLoop_eq_append dn M cs (saved ++ [c])
        refine ⟨c :: ext, ?_⟩
        simp only [selectLoop, if_neg h1, if_pos h2]
        simpa using he
      · obtain ⟨ext, he⟩ := selectLoop_eq_append dn M cs saved
        refine ⟨ext, ?_⟩
        simp only [selectLoop, if_neg h1, if_neg h2]
        exact he

theorem selectLoop_length_le {D : Type} [LinearOrder D] [Neg D]
    (dn : Nat → Nat → D) (M : Nat) :
    ∀ cs saved : List (D × Nat), saved.length ≤ M →
      (selectLoop dn M cs saved).length ≤ M
  | [], saved, h => by simpa [selectLoop] using h
  | c :: cs, saved, h => by
    by_cases h1 : M ≤ saved.length
    · simpa [selectLoop, h1] using h
    · by_cases h2 : ∀ a ∈ saved, ¬ (dn a.2 c.2 < -c.1)
      · simp only [selectLoop, if_neg h1, if_pos h2]
        exact selectLoop_length_le dn M cs (saved ++ [c]) (by simp; omega)
      · simp only [selectLoop, if_neg h1, if_neg h2]
        exact selectLoop_length_le dn M cs saved h

theorem selectLoop_mem_src {D : Type} [LinearOrder D] [Neg D]
    (dn : Nat → Nat → D) (M : Nat) :
    ∀ cs saved : List (D × Nat), ∀ p ∈ selectLoop dn M cs saved,
      p ∈ saved ∨ p ∈ cs
  | [], saved, p, hp => by simp [selectLoop] at hp; exact Or.inl hp
  | c :: cs, saved, p, hp => by
    by_cases h1 : M ≤ saved.length
    · simp only [selectLoop, if_pos h1] at hp
      exact Or.inl hp
    · by_cases h2 : ∀ a ∈ saved, ¬ (dn a.2 c.2 < -c.1)
      · simp only [selectLoop, if_neg h1, if_pos h2] at hp
        rcases selectLoop_mem_src dn M cs (saved ++ [c]) p hp with h | h
        · rcases List.mem_append.mp h with h' | h'
          · exact Or.inl h'
          · simp at h'
            exact Or.inr (by simp [h'])
        · exact Or.inr (List.mem_cons_of_mem _ h)
      · simp only [selectLoop, if_neg h1, if_neg h2] at hp
        rcases selectLoop_mem_src dn M cs saved p hp with h | h
        · exact Or.inl h
        · exact Or.inr (List.mem_cons_of_mem _ h)

theorem selectLoop_rejected {D : Type} [LinearOrder D] [Neg D]
    (dn : Nat → Nat → D) (M : Nat) :
    ∀ cs saved : List (D × Nat), saved.length ≤ M →
      ∀ c ∈ cs, c ∉ selectLoop dn M cs saved →
        (selectLoop dn M cs saved).length = M ∨
          ∃ a ∈ selectLoop dn M cs saved, dn a.2 c.2 < -c.1
  | [], saved, hle, c, hc, hout => by simp at hc
  | c0 :: cs, saved, hle, c, hc, hout => by
    by_cases h1 : M ≤ saved.length
    · left
      simp only [selectLoop, if_pos h1] at hout ⊢
      omega
    · by_cases h2 : ∀ a ∈ saved, ¬ (dn a.2 c0.2 < -c0.1)
      · simp only [selectLoop, if_neg h1, if_pos h2] at hout ⊢
        rcases List.mem_cons.mp hc with rfl | hc'
        · exfalso
          obtain ⟨ext, he⟩ := selectLoop_eq_append dn M cs (saved ++ [c])
          exact hout (by rw [he]; simp)
        · exact selectLoop_rejected dn M cs (saved ++ [c0]) (by simp; omega) c hc' hout
      · simp only [selectLoop, if_neg h1, if_neg h2] at hout ⊢
        rcases List.mem_cons.mp hc with rfl | hc'
        · right
          push_neg at h2
          obtain ⟨a, ha, hlt⟩ := h2
          obtain ⟨ext, he⟩ := selectLoop_eq_append dn M cs saved
          exact ⟨a, by rw [he]; exact List.mem_append_left _ ha, hlt⟩
        · exact selectLoop_rejected dn M cs saved hle c hc' hout

/-! ## C2 -/

/-- C2 counterexample: a candidate queue of size 3 > M = 2 (points 0, 1, 2
on a line at query distances 1, 10, 11) yields an output of size 1, not
exactly M. -/
theorem C2_select_size_counterexample :
    2 < ([(11, 2), (10, 1), (1, 0)] : List (ℤ × Nat)).length ∧
    (selectNeighborsPQ dnEx [(11, 2), (10, 1), (1, 0)] 2).length = 1 ∧
    (selectNeighborsPQ dnEx [(11, 2), (10, 1), (1, 0)] 2).length ≠ 2 := by decide

/-- C2 amended: for a candidate set larger than M, heuristic selection
outputs at most M candidates (possibly fewer); every candidate rejected by
the occlusion test has an accepted candidate strictly closer to it than it
is to the query, while the remaining input is discarded only once M
candidates are accepted. -/
theorem C2_select_amended {D : Type} [LinearOrder D] [SubtractionMonoid D]
    (dn : Nat → Nat → D) (nbrs : List (D × Nat)) (M : Nat)
    (h : M < nbrs.length) :
    (selectNeighborsPQ dn nbrs M).length ≤ M ∧
    (∀ p ∈ selectNeighborsPQ dn nbrs M, p ∈ nbrs) ∧
    (∀ p ∈ nbrs, p ∉ selectNeighborsPQ dn nbrs M →
      (selectNeighborsPQ dn nbrs M).length = M ∨
        ∃ a ∈ selectNeighborsPQ dn nbrs M, dn a.2 p.2 < p.1) := by
  have hnl : ¬ (nbrs.length < M) := by omega
  have hsel : selectNeighborsPQ dn nbrs M =
      List.foldl (fun acc p => pqInsert (-p.1, p.2) acc) []
        (selectLoop dn M (pqDrainNeg nbrs) []) := by
    simp [selectNeighborsPQ, hnl]
  set saved := selectLoop dn M (pqDrainNeg nbrs) [] with hsaved
  have hperm : List.Perm (selectNeighborsPQ dn nbrs M)
      (saved.map (fun p => (-p.1, p.2))) := by
    rw [hsel]
    simpa using foldl_pqInsert_perm (fun p : D × Nat => (-p.1, p.2)) saved []
  have hmem_out : ∀ p, p ∈ selectNeighborsPQ dn nbrs M ↔
      (-p.1, p.2) ∈ saved := by
    intro p
    rw [hperm.mem_iff, List.mem_map]
    constructor
    · rintro ⟨q, hq, rfl⟩
      simpa [neg_neg] using hq
    · intro hp
      exact ⟨(-p.1, p.2), hp, by simp [neg_neg]⟩
  have hlen : (selectNeighborsPQ dn nbrs M).length = saved.length := by
    rw [hperm.length_eq, List.length_map]
  have hmem_nbrs : ∀ p : D × Nat, p ∈ nbrs ↔ (-p.1, p.2) ∈ pqDrainNeg nbrs := by
    intro p
    rw [(pqDrainNeg_perm nbrs).mem_iff, List.mem_map]
    constructor
    · intro hp
      exact ⟨p, hp, rfl⟩
    · rintro ⟨q, hq, hqe⟩
      rw [Prod.mk.injEq] at hqe
      have h1 : q.1 = p.1 := neg_injective hqe.1
      have : q = p := Prod.ext h1 hqe.2
      rwa [this] at hq
  refine ⟨?_, ?_, ?_⟩
  · rw [hlen]
    exact selectLoop_length_le dn M _ [] (by simp)
  · intro p hp
    have hin := (hmem_out p).mp hp
    rcases selectLoop_mem_src dn M _ [] _ hin with h | h
    · simp at h
    · exact (hmem_nbrs p).mpr h
  · intro p hp hout
    have hc : (-p.1, p.2) ∈ pqDrainNeg nbrs := (hmem_nbrs p).mp hp
    have hcout : (-p.1, p.2) ∉ saved := fun hs => hout ((hmem_out p).mpr hs)
    rcases selectLoop_rejected dn M _ [] (by simp) _ hc hcout with hM | ⟨a, ha, hlt⟩
    · left
      rw [hlen, hM]
    · right
      refine ⟨(-a.1, a.2), ?_, ?_⟩
      · exact (hmem_out (-a.1, a.2)).mpr (by simpa [neg_neg] using ha)
      · simpa [neg_neg] using hlt

/-- C2 witness: the amended statement at the counterexample input. -/
theorem C2_select_amended_witness :
    2 < ([(11, 2), (10, 1), (1, 0)] : List (ℤ × Nat)).length ∧
    (selectNeighborsPQ dnEx [(11, 2), (10, 1), (1, 0)] 2).length ≤ 2 :=
  ⟨by decide, (C2_select_amended dnEx [(11, 2), (10, 1), (1, 0)] 2 (by decide)).1⟩

/-! ## Beam-search lemmas -/

theorem popToSize_eq_drop {D : Type} [LinearOrder D] (K : Nat) :
    ∀ l : List (D × Nat), popToSize K l = l.drop (l.length - K)
  | [] => by simp [popToSize]
  | x :: xs => by
    by_cases h : K < xs.length + 1
    · have hlen : (x :: xs).length - K = (xs.length - K) + 1 := by
        simp only [List.length_cons]
        omega
      simp only [popToSize, if_pos h, hlen, List.drop_succ_cons]
      exact popToSize_eq_drop K xs
    · have hlen : xs.length + 1 - K = 0 := by omega
      simp [popToSize, if_neg h, List.length_cons, hlen]

/-- Preservation of an invariant of the result heap and the visited set
through the inner expansion fold of the beam-search loop. -/
theorem foldl_beamExpand_preserve {D : Type} [LinearOrder D] [Neg D]
    (dq : Nat → D) (buf : Nat) (Q : List (D × Nat) → Finset Nat → Prop)
    (hstep : ∀ (bs : BeamSt D) (l : Nat), Q bs.nbrs bs.vis →
      Q (beamExpand dq buf bs l).nbrs (beamExpand dq buf bs l).vis) :
    ∀ (ls : List Nat) (bs : BeamSt D), Q bs.nbrs bs.vis →
      Q (List.foldl (beamExpand dq buf) bs ls).nbrs
        (List.foldl (beamExpand dq buf) bs ls).vis
  | [], bs, h => h
  | l :: ls, bs, h => by
    simp only [List.foldl_cons]
    exact foldl_beamExpand_preserve dq buf Q hstep ls _ (hstep bs l h)

/-- Preservation of an invariant of the result heap and the visited set
through the beam-search main loop. -/
theorem beamLoop_preserve {D : Type} [LinearOrder D] [Neg D]
    (links : Nat → List Nat) (dq : Nat → D) (buf : Nat)
    (Q : List (D × Nat) → Finset Nat → Prop)
    (hstep : ∀ (bs : BeamSt D) (l : Nat), Q bs.nbrs bs.vis →
      Q (beamExpand dq buf bs l).nbrs (beamExpand dq buf bs l).vis) :
    ∀ (fuel : Nat) (bs : BeamSt D), Q bs.nbrs bs.vis →
      Q (beamLoop links dq buf fuel bs).nbrs (beamLoop links dq buf fuel bs).vis
  | 0, bs, h => h
  | fuel + 1, bs, h => by
    rcases hc : bs.cands with _ | ⟨top, rest⟩
    · simpa [beamLoop, hc] using h
    · by_cases hbr : bs.maxDist < -top.1
      · simpa [beamLoop, hc, hbr] using h
      · simp only [beamLoop, hc, if_neg hbr]
        exact beamLoop_preserve links dq buf Q hstep fuel _
          (foldl_beamExpand_preserve dq buf Q hstep (links top.2)
            { bs with cands := rest } h)

theorem pqInsert_sorted {D : Type} [LinearOrder D] (x : D × Nat)
    (l : List (D × Nat)) (h : List.Sorted pqGe l) :
    List.Sorted pqGe (pqInsert x l) :=
  h.orderedInsert x l

theorem sorted_tail_pq {D : Type} [LinearOrder D] (l : List (D × Nat))
    (h : List.Sorted pqGe l) : List.Sorted pqGe l.tail := by
  rcases l with _ | ⟨y, ys⟩
  · exact h
  · exact h.of_cons

theorem beamExpand_sorted {D : Type} [LinearOrder D] [Neg D]
    (dq : Nat → D) (buf : Nat) (bs : BeamSt D) (l : Nat)
    (h : List.Sorted pqGe bs.nbrs) :
    List.Sorted pqGe (beamExpand dq buf bs l).nbrs := by
  unfold beamExpand
  by_cases h1 : l ∈ bs.vis
  · rw [if_pos h1]
    exact h
  · rw [if_neg h1]
    by_cases h2 : bs.nbrs.length < buf ∨ dq l < bs.maxDist
    · rw [if_pos h2]
      have hins := pqInsert_sorted (dq l, l) bs.nbrs h
      by_cases h3 : buf < (pqInsert (dq l, l) bs.nbrs).length
      · simp only [if_pos h3]
        exact sorted_tail_pq _ hins
      · simpa only [if_neg h3] using hins
    · rw [if_neg h2]
      exact h

theorem beamExpand_nodup {D : Type} [LinearOrder D] [Neg D]
    (dq : Nat → D) (buf : Nat) (bs : BeamSt D) (l : Nat)
    (h : (bs.nbrs.map (fun p => p.2)).Nodup ∧ ∀ p ∈ bs.nbrs, p.2 ∈ bs.vis) :
    ((beamExpand dq buf bs l).nbrs.map (fun p => p.2)).Nodup ∧
      ∀ p ∈ (beamExpand dq buf bs l).nbrs, p.2 ∈ (beamExpand dq buf bs l).vis := by
  obtain ⟨hnd, hsub⟩ := h
  unfold beamExpand
  by_cases h1 : l ∈ bs.vis
  · rw [if_pos h1]
    exact ⟨hnd, hsub⟩
  · rw [if_neg h1]
    by_cases h2 : bs.nbrs.length < buf ∨ dq l < bs.maxDist
    · rw [if_pos h2]
      have hperm : List.Perm (pqInsert (dq l, l) bs.nbrs) ((dq l, l) :: bs.nbrs) :=
        List.perm_orderedInsert _ _ _
      have hpermm : List.Perm ((pqInsert (dq l, l) bs.nbrs).map (fun p => p.2))
          (l :: bs.nbrs.map (fun p => p.2)) := by
        simpa using hperm.map (fun p => p.2)
      have hlnotin : l ∉ bs.nbrs.map (fun p => p.2) := by
        intro hl
        obtain ⟨p, hp, hpe⟩ := List.mem_map.mp hl
        exact h1 (hpe ▸ hsub p hp)
      have hndins : ((pqInsert (dq l, l) bs.nbrs).map (fun p => p.2)).Nodup := by
        rw [hpermm.nodup_iff]
        exact List.nodup_cons.mpr ⟨hlnotin, hnd⟩
      have hmemins : ∀ p ∈ pqInsert (dq l, l) bs.nbrs, p.2 ∈ insert l bs.vis := by
        intro p hp
        rcases List.mem_cons.mp (hperm.mem_iff.mp hp) with he | he
        · rw [he]
          exact Finset.mem_insert_self l bs.vis
        · exact Finset.mem_insert_of_mem (hsub p he)
      by_cases h3 : buf < (pqInsert (dq l, l) bs.nbrs).length
      · simp only [if_pos h3]
        constructor
        · rw [List.map_tail]
          exact hndins.sublist (List.tail_sublist _)
        · intro p hp
          exact hmemins p (List.mem_of_mem_tail hp)
      · simp only [if_neg h3]
        exact ⟨hndins, hmemins⟩
    · rw [if_neg h2]
      exact ⟨hnd, fun p hp => Finset.mem_insert_of_mem (hsub p hp)⟩

theorem beamSearchNodes_sorted {D α β : Type} [LinearOrder D] [Neg D]
    (st : IndexSt α β) (d : α → α → D) (q : α) (entry buf : Nat) :
    List.Sorted pqGe (beamSearchNodes st d q entry buf) := by
  simp only [beamSearchNodes]
  exact beamLoop_preserve st.linksOf (fun n => d q (st.dataOf n)) buf
    (fun nbrs _ => List.Sorted pqGe nbrs)
    (fun bs l h => beamExpand_sorted _ _ bs l h) (st.curN + 2) _
    (List.sorted_singleton _)

theorem beamSearchNodes_nodup {D α β : Type} [LinearOrder D] [Neg D]
    (st : IndexSt α β) (d : α → α → D) (q : α) (entry buf : Nat) :
    ((beamSearchNodes st d q entry buf).map (fun p => p.2)).Nodup := by
  simp only [beamSearchNodes]
  refine (beamLoop_preserve st.linksOf (fun n => d q (st.dataOf n)) buf
    (fun nbrs vis => (nbrs.map (fun p => p.2)).Nodup ∧ ∀ p ∈ nbrs, p.2 ∈ vis)
    (fun bs l h => beamExpand_nodup _ _ bs l h) (st.curN + 2) _ ?_).1
  constructor
  · simp
  · intro p hp
    simp only [List.mem_singleton] at hp
    rw [hp]
    exact Finset.mem_singleton_self entry

/-! ## C10 -/

/-- C10: the trimmed beam `Index::search` reports contains pairwise-distinct
node ids (the visited set admits each node into the result heap at most
once), and the returned (distance, label) list is a permutation of that
trimmed beam decorated with the node labels. -/
theorem C10_search_nodes_distinct {D α β : Type} [LinearOrder D] [Neg D]
    (st : IndexSt α β) (d : α → α → D) (q : α) (K efS ni : Nat) :
    ((searchKeptNodes st d q K efS ni).map (fun p => p.2)).Nodup ∧
    List.Perm (searchResults st d q K efS ni)
      ((searchKeptNodes st d q K efS ni).map (fun p => (p.1, st.labelOf p.2))) := by
  constructor
  · have hnd : ((beamFromEntry st d q efS ni).map (fun p => p.2)).Nodup :=
      beamSearchNodes_nodup st d q _ efS
    unfold searchKeptNodes
    rw [popToSize_eq_drop, List.map_drop]
    exact hnd.sublist (List.drop_sublist _ _)
  · exact List.perm_insertionSort distLe _

/-! ## C8 -/

/-- C8: on a non-empty index, `search` returns the `K` closest elements of
the beam-search result with their labels: the output has length
`min K |beam|`, is sorted by ascending distance, is a permutation of the
`K` closest beam entries decorated with labels, and those `K` entries are
all at distance no greater than any discarded beam entry. -/
theorem C8_search_topk {D α β : Type} [LinearOrder D] [Neg D]
    (st : IndexSt α β) (d : α → α → D) (q : α) (K efS ni : Nat)
    (hne : 0 < st.curN) :
    (searchResults st d q K efS ni).length =
      min K (beamFromEntry st d q efS ni).length ∧
    List.Sorted distLe (searchResults st d q K efS ni) ∧
    List.Perm (searchResults st d q K efS ni)
      (((beamFromEntry st d q efS ni).reverse.take K).map
        (fun p => (p.1, st.labelOf p.2))) ∧
    ∀ p ∈ (beamFromEntry st d q efS ni).reverse.take K,
      ∀ r ∈ (beamFromEntry st d q efS ni).reverse.drop K, p.1 ≤ r.1 := by
  set B := beamFromEntry st d q efS ni with hB
  have hsortB : List.Sorted pqGe B := beamSearchNodes_sorted st d q _ efS
  have hkept : searchKeptNodes st d q K efS ni = B.drop (B.length - K) := by
    unfold searchKeptNodes
    rw [popToSize_eq_drop]
  have hrevtake : (B.drop (B.length - K)).reverse = B.reverse.take K := by
    rw [List.reverse_drop]
    have : B.length - (B.length - K) = min K B.length := by omega
    rw [this]
    rcases Nat.le_total K B.length with h | h
    · rw [Nat.min_eq_left h]
    · rw [Nat.min_eq_right h, ← List.length_reverse,
        List.take_length, List.take_of_length_le]
      rw [List.length_reverse]
      exact h
  have hperm : List.Perm (searchResults st d q K efS ni)
      ((B.reverse.take K).map (fun p => (p.1, st.labelOf p.2))) := by
    unfold searchResults
    refine (List.perm_insertionSort distLe _).trans ?_
    rw [hkept, ← hrevtake]
    exact (List.reverse_perm _).symm.map _
  refine ⟨?_, ?_, hperm, ?_⟩
  · rw [hperm.length_eq, List.length_map, ← hrevtake, List.length_reverse,
      List.length_drop]
    omega
  · exact List.sorted_insertionSort distLe _
  · intro p hp r hr
    have hrevp : List.Pairwise (fun a b => pqGe b a) B.reverse :=
      List.pairwise_reverse.mpr hsortB
    have hsplit := List.take_append_drop K B.reverse
    have hpair := (List.pairwise_append.mp (by rw [hsplit]; exact hrevp)).2.2
      p hp r hr
    rcases hpair with h | ⟨h, _⟩
    · exact le_of_lt h
    · exact le_of_eq h

/-- C8 witness: a three-node index over ℤ with query 6, K = 2. -/
theorem C8_search_topk_witness :
    0 < stC8.curN ∧
    (searchResults stC8 dInt 6 2 4 100).length =
      min 2 (beamFromEntry stC8 dInt 6 4 100).length :=
  ⟨by decide, (C8_search_topk stC8 dInt 6 2 4 100 (by decide)).1⟩


/-! ## Relabeling machinery (Index::relabel step 2) -/

theorem swapMem_self {α β : Type} (mem : Nat → GNode α β) (a : Nat) :
    swapMem mem a a = mem := by
  funext i
  unfold swapMem
  by_cases h : i = a <;> simp [h]

theorem getLastD_indep {γ : Type} :
    ∀ (l : List γ) (d1 d2 : γ), l ≠ [] → l.getLastD d1 = l.getLastD d2
  | [], _, _, h => absurd rfl h
  | _ :: _, _, _, _ => rfl

theorem getLastD_mem {γ : Type} :
    ∀ (l : List γ) (d : γ), l ≠ [] → l.getLastD d ∈ l
  | [], _, h => absurd rfl h
  | [a], _, _ => by simp [List.getLastD]
  | a :: b :: l, d, _ =>
    List.mem_cons_of_mem a (getLastD_mem (b :: l) a (List.cons_ne_nil b l))

theorem foldl_swap_pivot {α β : Type} (n : Nat) :
    ∀ (ts : List Nat) (mem : Nat → GNode α β), n ∉ ts → ts.Nodup →
      (∀ pr ∈ (n :: ts).zip ts,
        (List.foldl (fun m t => swapMem m n t) mem ts) pr.2 = mem pr.1) ∧
      ((List.foldl (fun m t => swapMem m n t) mem ts) n = mem (ts.getLastD n)) ∧
      (∀ i, i ≠ n → i ∉ ts →
        (List.foldl (fun m t => swapMem m n t) mem ts) i = mem i)
  | [], mem, _, _ => by
    refine ⟨by simp, by simp [List.getLastD], fun i _ _ => rfl⟩
  | t :: ts', mem, hn, hnd => by
    have hnt : n ≠ t := fun h => hn (h ▸ List.mem_cons_self t ts')
    have hnts' : n ∉ ts' := fun h => hn (List.mem_cons_of_mem t h)
    have htts' : t ∉ ts' := (List.nodup_cons.mp hnd).1
    have hnd' : ts'.Nodup := (List.nodup_cons.mp hnd).2
    obtain ⟨ihzip, ihlast, ihout⟩ :=
      foldl_swap_pivot n ts' (swapMem mem n t) hnts' hnd'
    have hm_n : swapMem mem n t n = mem t := by simp [swapMem]
    have hm_t : swapMem mem n t t = mem n := by
      simp [swapMem, hnt.symm]
    have hm_other : ∀ i, i ≠ n → i ≠ t → swapMem mem n t i = mem i := by
      intro i h1 h2
      simp [swapMem, h1, h2]
    simp only [List.foldl_cons]
    refine ⟨?_, ?_, ?_⟩
    · intro pr hpr
      rw [List.zip_cons_cons] at hpr
      rcases List.mem_cons.mp hpr with hpr1 | hpr1
      · subst hpr1
        have hout := ihout t hnt.symm htts'
        simp only at hout ⊢
        rw [hout, hm_t]
      · rcases ts' with _ | ⟨u, us⟩
        · simp at hpr1
        · rw [List.zip_cons_cons] at hpr1
          rcases List.mem_cons.mp hpr1 with hpr2 | hpr2
          · subst hpr2
            have hp : (n, u) ∈ (n :: u :: us).zip (u :: us) := by
              rw [List.zip_cons_cons]
              exact List.mem_cons_self _ _
            have hz := ihzip (n, u) hp
            simp only at hz ⊢
            rw [hz, hm_n]
          · have hp : pr ∈ (n :: u :: us).zip (u :: us) := by
              rw [List.zip_cons_cons]
              exact List.mem_cons_of_mem _ hpr2
            have hz := ihzip pr hp
            rw [hz]
            obtain ⟨h1, h2⟩ := List.of_mem_zip hpr2
            refine hm_other pr.1 ?_ ?_
            · intro he
              exact hnts' (he ▸ h1)
            · intro he
              exact htts' (he ▸ h1)
    · by_cases hne : ts' = []
      · subst hne
        exact hm_n
      · have hgl : (t :: ts').getLastD n = ts'.getLastD n := by
          rw [List.getLastD_cons]
          exact getLastD_indep ts' t n hne
        rw [hgl, ihlast]
        have hmemg : ts'.getLastD n ∈ ts' := getLastD_mem ts' n hne
        refine hm_other _ ?_ ?_
        · intro he
          exact hnts' (he ▸ hmemg)
        · intro he
          exact htts' (he ▸ hmemg)
    · intro i h1 h2
      have h2' : i ∉ ts' := fun h => h2 (List.mem_cons_of_mem t h)
      have h2t : i ≠ t := fun h => h2 (h ▸ List.mem_cons_self t ts')
      rw [ihout i h1 h2', hm_other i h1 h2t]

theorem cycleWalk_run {α β : Type} (P : Nat → Nat) (n : Nat) :
    ∀ (rl : List Nat) (fuel : Nat) (mem : Nat → GNode α β) (vis : Finset Nat)
      (dest : Nat),
      rl.length < fuel →
      (rl = [] → dest ∈ vis) →
      (∀ d0 rest, rl = d0 :: rest → d0 = dest) →
      (∀ x ∈ rl, x ∉ vis) →
      rl.Nodup →
      (∀ pr ∈ rl.zip rl.tail, pr.2 = P pr.1) →
      (rl ≠ [] → P (rl.getLastD n) ∈ vis ∨ P (rl.getLastD n) ∈ rl) →
      cycleWalk P n fuel mem vis dest =
        (List.foldl (fun m d => swapMem m n (P d)) mem rl, vis ∪ rl.toFinset)
  | [], fuel, mem, vis, dest, hf, hnil, _, _, _, _, _ => by
    rcases fuel with _ | f
    · exact absurd hf (by simp)
    · simp only [cycleWalk, if_pos (hnil rfl)]
      simp
  | d :: rest, fuel, mem, vis, dest, hf, _, hhead, hdisj, hnd, hchain, hstop => by
    rcases fuel with _ | f
    · exact absurd hf (by simp)
    · have hd : d = dest := hhead d rest rfl
      have hdnv : dest ∈ vis → False := by
        intro hv
        exact hdisj d (List.mem_cons_self d rest) (hd ▸ hv)
      simp only [cycleWalk]
      rw [if_neg hdnv]
      rw [← hd]
      have hrec := cycleWalk_run P n rest f (swapMem mem n (P d)) (insert d vis) (P d)
        (by simp only [List.length_cons] at hf; omega)
        (by
          intro hre
          subst hre
          have hst : P d ∈ vis ∨ P d ∈ [d] := hstop (List.cons_ne_nil d [])
          rcases hst with h | h
          · exact Finset.mem_insert_of_mem h
          · simp only [List.mem_singleton] at h
            rw [h]
            exact Finset.mem_insert_self d vis)
        (by
          intro e rest2 hre
          subst hre
          have hpr : (d, e) ∈ (d :: e :: rest2).zip ((d :: e :: rest2).tail) := by
            show (d, e) ∈ (d :: e :: rest2).zip (e :: rest2)
            rw [List.zip_cons_cons]
            exact List.mem_cons_self _ _
          exact hchain (d, e) hpr)
        (by
          intro x hx
          intro hmem
          rcases Finset.mem_insert.mp hmem with h | h
          · exact (List.nodup_cons.mp hnd).1 (h ▸ hx)
          · exact hdisj x (List.mem_cons_of_mem d hx) h)
        ((List.nodup_cons.mp hnd).2)
        (by
          intro pr hpr
          apply hchain pr
          rcases rest with _ | ⟨u, us⟩
          · simp at hpr
          · show pr ∈ (d :: u :: us).zip (u :: us)
            rw [List.zip_cons_cons]
            exact List.mem_cons_of_mem _ hpr)
        (by
          intro hne
          have hgl2 : (d :: rest).getLastD n = rest.getLastD n := by
            rw [List.getLastD_cons]
            exact getLastD_indep rest d n hne
          have hst := hstop (List.cons_ne_nil d rest)
          rw [hgl2] at hst
          rcases hst with h | h
          · left
            exact Finset.mem_insert_of_mem h
          · rcases List.mem_cons.mp h with h1 | h1
            · left
              rw [h1]
              exact Finset.mem_insert_self d vis
            · right
              exact h1)
      rw [hrec]
      refine Prod.ext ?_ ?_
      · simp [List.foldl_cons]
      · simp only [List.toFinset_cons]
        ext x
        simp only [Finset.mem_union, Finset.mem_insert, List.mem_toFinset,
          List.mem_cons]
        tauto

theorem map_P_chain {P : Nat → Nat} {n : Nat} :
    ∀ l : List Nat, (∀ pr ∈ l.zip l.tail, pr.2 = P pr.1) → l ≠ [] →
      P (l.getLastD n) = n → l.map P = l.tail ++ [n]
  | [], _, h, _ => absurd rfl h
  | [a], _, _, hcl => by
    simp only [List.map_cons, List.map_nil]
    have : P a = n := hcl
    rw [this]
    rfl
  | a :: b :: l', hchain, _, hcl => by
    have hab : b = P a := hchain (a, b) (by
      show (a, b) ∈ (a :: b :: l').zip (b :: l')
      rw [List.zip_cons_cons]
      exact List.mem_cons_self _ _)
    have hcl' : P ((b :: l').getLastD n) = n := by
      have e1 : (a :: b :: l').getLastD n = (b :: l').getLastD a := by
        rw [List.getLastD_cons]
      have e2 : (b :: l').getLastD a = (b :: l').getLastD n :=
        getLastD_indep (b :: l') a n (List.cons_ne_nil b l')
      rw [e1, e2] at hcl
      exact hcl
    have ih := map_P_chain (b :: l') (by
      intro pr hpr
      apply hchain pr
      show pr ∈ (a :: b :: l').zip (b :: l')
      rw [List.zip_cons_cons]
      exact List.mem_cons_of_mem _ hpr) (List.cons_ne_nil b l') hcl'
    simp only [List.map_cons] at ih ⊢
    rw [ih, ← hab]
    rfl

theorem mem_last_or_zip {γ : Type} [DecidableEq γ] :
    ∀ (l : List γ) (d : γ), l ≠ [] → ∀ v ∈ l,
      v = l.getLastD d ∨ ∃ pr ∈ l.zip l.tail, pr.1 = v
  | [], _, h, _, _ => absurd rfl h
  | [a], d, _, v, hv => by
    left
    simp only [List.mem_singleton] at hv
    rw [hv]
    rfl
  | a :: b :: l', d, _, v, hv => by
    rcases List.mem_cons.mp hv with h | h
    · right
      refine ⟨(a, b), ?_, h.symm⟩
      show (a, b) ∈ (a :: b :: l').zip (b :: l')
      rw [List.zip_cons_cons]
      exact List.mem_cons_self _ _
    · rcases mem_last_or_zip (b :: l') a (List.cons_ne_nil b l') v h with h1 | h1
      · left
        rw [h1]
        simp only [List.getLastD_cons]
      · right
        obtain ⟨pr, hpr, hpre⟩ := h1
        refine ⟨pr, ?_, hpre⟩
        show pr ∈ (a :: b :: l').zip (b :: l')
        rw [List.zip_cons_cons]
        exact List.mem_cons_of_mem _ hpr

theorem processCycle_spec {α β : Type} (P : Nat → Nat) (n : Nat) (rl : List Nat)
    (fuel : Nat) (mem : Nat → GNode α β) (vis : Finset Nat)
    (hfuel : rl.length < fuel)
    (hchain : ∀ pr ∈ (n :: rl).zip rl, pr.2 = P pr.1)
    (hclose : P ((n :: rl).getLastD n) = n)
    (hnd : (n :: rl).Nodup)
    (hdisj : ∀ x ∈ n :: rl, x ∉ vis) :
    (cycleWalk P n fuel (swapMem mem n (P n)) (insert n vis) (P n)).2 =
      vis ∪ (n :: rl).toFinset ∧
    (∀ v ∈ n :: rl,
      (cycleWalk P n fuel (swapMem mem n (P n)) (insert n vis) (P n)).1 (P v) =
        mem v) ∧
    (∀ i, i ∉ n :: rl →
      (cycleWalk P n fuel (swapMem mem n (P n)) (insert n vis) (P n)).1 i = mem i) := by
  have hnrl : n ∉ rl := (List.nodup_cons.mp hnd).1
  have hndrl : rl.Nodup := (List.nodup_cons.mp hnd).2
  have hgl : (n :: rl).getLastD n = rl.getLastD n := by
    rcases rl with _ | ⟨u, us⟩
    · rfl
    · rw [List.getLastD_cons]
  have hrun := cycleWalk_run P n rl fuel (swapMem mem n (P n)) (insert n vis) (P n)
    hfuel
    (by
      intro hre
      subst hre
      have he : P n = n := hclose
      rw [he]
      try exact Finset.mem_insert_self n vis)
    (by
      intro d0 rest hre
      subst hre
      exact hchain (n, d0) (by
        rw [List.zip_cons_cons]
        exact List.mem_cons_self _ _))
    (by
      intro x hx hmem
      rcases Finset.mem_insert.mp hmem with h | h
      · exact hnrl (h ▸ hx)
      · exact hdisj x (List.mem_cons_of_mem n hx) h)
    hndrl
    (by
      intro pr hpr
      apply hchain pr
      rcases rl with _ | ⟨u, us⟩
      · simp at hpr
      · rw [List.zip_cons_cons]
        refine List.mem_cons_of_mem _ ?_
        exact hpr)
    (by
      intro hne
      left
      have : rl.getLastD n = (n :: rl).getLastD n := hgl.symm
      rw [this, hclose]
      exact Finset.mem_insert_self n vis)
  -- the fold over the whole cycle
  have hfold : (cycleWalk P n fuel (swapMem mem n (P n)) (insert n vis) (P n)).1 =
      List.foldl (fun m t => swapMem m n t) mem rl := by
    rw [hrun]
    have e1 : List.foldl (fun m d => swapMem m n (P d)) (swapMem mem n (P n)) rl =
        List.foldl (fun m d => swapMem m n (P d)) mem (n :: rl) := by
      rw [List.foldl_cons]
    have e2 : List.foldl (fun m d => swapMem m n (P d)) mem (n :: rl) =
        List.foldl (fun m t => swapMem m n t) mem ((n :: rl).map P) := by
      rw [List.foldl_map]
    have e3 : (n :: rl).map P = rl ++ [n] := by
      have := map_P_chain (P := P) (n := n) (n :: rl) hchain
        (List.cons_ne_nil n rl) hclose
      simpa using this
    rw [e1, e2, e3, List.foldl_append]
    simp only [List.foldl_cons, List.foldl_nil]
    rw [swapMem_self]
  have hvis : (cycleWalk P n fuel (swapMem mem n (P n)) (insert n vis) (P n)).2 =
      vis ∪ (n :: rl).toFinset := by
    rw [hrun]
    simp only [List.toFinset_cons]
    ext x
    simp only [Finset.mem_union, Finset.mem_insert, List.mem_toFinset]
    tauto
  obtain ⟨hzip, hlast, hout⟩ := foldl_swap_pivot n rl mem hnrl hndrl
  refine ⟨hvis, ?_, ?_⟩
  · intro v hv
    rw [hfold]
    rcases mem_last_or_zip (n :: rl) n (List.cons_ne_nil n rl) v hv with h | h
    · have hPv : P v = n := by
        rw [h]
        exact hclose
      rw [hPv]
      rw [h, hgl]
      exact hlast
    · obtain ⟨pr, hpr, hpre⟩ := h
      have hpr' : pr ∈ (n :: rl).zip rl := hpr
      have h2 : pr.2 = P pr.1 := hchain pr hpr'
      have := hzip pr hpr'
      rw [h2, hpre] at this
      exact this
  · intro i hi
    rw [hfold]
    exact hout i (fun h => hi (h ▸ List.mem_cons_self n rl))
      (fun h => hi (List.mem_cons_of_mem n h))

theorem orbitList_eq_map (P : Nat → Nat) :
    ∀ (m : Nat) (x : Nat), orbitList P x m = (List.range m).map (fun k => P^[k] x)
  | 0, x => rfl
  | m + 1, x => by
    have ih := orbitList_eq_map P m (P x)
    simp only [orbitList, ih, List.range_succ_eq_map, List.map_cons, List.map_map]
    congr 1

theorem orbitList_length (P : Nat → Nat) :
    ∀ (m x : Nat), (orbitList P x m).length = m
  | 0, _ => rfl
  | m + 1, x => by simp [orbitList, orbitList_length P m (P x)]

theorem orbitList_chain (P : Nat → Nat) :
    ∀ (m x : Nat), ∀ pr ∈ (orbitList P x m).zip (orbitList P x m).tail,
      pr.2 = P pr.1
  | 0, x, pr, hpr => by simp [orbitList] at hpr
  | 1, x, pr, hpr => by simp [orbitList] at hpr
  | m + 2, x, pr, hpr => by
    have hstruct : orbitList P x (m + 2) = x :: P x :: orbitList P (P (P x)) m := rfl
    rw [hstruct] at hpr
    have : (x :: P x :: orbitList P (P (P x)) m).tail =
        P x :: orbitList P (P (P x)) m := rfl
    rw [this, List.zip_cons_cons] at hpr
    rcases List.mem_cons.mp hpr with h | h
    · rw [h]
    · have hpr2 : pr ∈ (orbitList P (P x) (m + 1)).zip
          (orbitList P (P x) (m + 1)).tail := by
        show pr ∈ (P x :: orbitList P (P (P x)) m).zip
          ((P x :: orbitList P (P (P x)) m).tail)
        exact h
      exact orbitList_chain P (m + 1) (P x) pr hpr2

theorem orbitList_mem (P : Nat → Nat) :
    ∀ (m x v : Nat), v ∈ orbitList P x m ↔ ∃ k, k < m ∧ v = P^[k] x := by
  intro m x v
  rw [orbitList_eq_map]
  simp only [List.mem_map, List.mem_range]
  constructor
  · rintro ⟨k, hk, he⟩
    exact ⟨k, hk, he.symm⟩
  · rintro ⟨k, hk, he⟩
    exact ⟨k, hk, he.symm⟩

theorem orbitList_getLastD (P : Nat → Nat) :
    ∀ (m x d : Nat), 0 < m → (orbitList P x m).getLastD d = P^[m - 1] x
  | 0, _, _, h => absurd h (by omega)
  | 1, x, d, _ => rfl
  | m + 2, x, d, _ => by
    have hstruct : orbitList P x (m + 2) = x :: orbitList P (P x) (m + 1) := rfl
    rw [hstruct, List.getLastD_cons]
    rw [orbitList_getLastD P (m + 1) (P x) x (by omega)]
    simp only [Nat.add_sub_cancel]
    rw [← Function.iterate_succ_apply]
    rfl

theorem iterate_lt {P : Nat → Nat} {N : Nat} (hbij : BijOnRange P N) :
    ∀ (k v : Nat), v < N → P^[k] v < N := by
  intro k
  induction k with
  | zero => intro v hv; simpa using hv
  | succ k ih =>
    intro v hv
    rw [Function.iterate_succ_apply]
    exact ih (P v) (hbij.1 v hv)

theorem iterate_cancel {P : Nat → Nat} {N : Nat} (hbij : BijOnRange P N) :
    ∀ (k u w : Nat), u < N → w < N → P^[k] u = P^[k] w → u = w := by
  intro k
  induction k with
  | zero => intro u w _ _ h; simpa using h
  | succ k ih =>
    intro u w hu hw h
    rw [Function.iterate_succ_apply, Function.iterate_succ_apply] at h
    exact hbij.2.1 u hu w hw (ih (P u) (P w) (hbij.1 u hu) (hbij.1 w hw) h)

theorem exists_period {P : Nat → Nat} {N : Nat} (hbij : BijOnRange P N)
    (n : Nat) (hn : n < N) : ∃ m, 0 < m ∧ P^[m] n = n := by
  have hmaps : ∀ k ∈ Finset.range (N + 1), P^[k] n ∈ Finset.range N := by
    intro k _
    exact Finset.mem_range.mpr (iterate_lt hbij k n hn)
  have hcard : (Finset.range N).card < (Finset.range (N + 1)).card := by
    simp
  obtain ⟨i, hi, j, hj, hij, he⟩ :=
    Finset.exists_ne_map_eq_of_card_lt_of_maps_to hcard hmaps
  rcases Nat.lt_or_ge i j with hlt | hge
  · refine ⟨j - i, by omega, ?_⟩
    have : P^[i] (P^[j - i] n) = P^[i] n := by
      rw [← Function.iterate_add_apply]
      rw [show i + (j - i) = j by omega]
      exact he.symm
    exact iterate_cancel hbij i _ n (iterate_lt hbij _ n hn) hn this
  · have hlt2 : j < i := by
      rcases Nat.lt_or_ge j i with h | h
      · exact h
      · omega
    refine ⟨i - j, by omega, ?_⟩
    have : P^[j] (P^[i - j] n) = P^[j] n := by
      rw [← Function.iterate_add_apply]
      rw [show j + (i - j) = i by omega]
      exact he
    exact iterate_cancel hbij j _ n (iterate_lt hbij _ n hn) hn this

theorem orbit_nodup {P : Nat → Nat} {N : Nat} (hbij : BijOnRange P N)
    (n : Nat) (hn : n < N) (m : Nat)
    (hmin : ∀ k, 0 < k → k < m → P^[k] n ≠ n) :
    (orbitList P n m).Nodup := by
  rw [orbitList_eq_map]
  refine List.Nodup.map_on ?_ (List.nodup_range m)
  intro a ha b hb he
  simp only [List.mem_range] at ha hb
  by_contra hne
  rcases Nat.lt_or_ge a b with hlt | hge
  · have hc : P^[a] (P^[b - a] n) = P^[a] n := by
      rw [← Function.iterate_add_apply]
      rw [show a + (b - a) = b by omega]
      exact he.symm
    have := iterate_cancel hbij a _ n (iterate_lt hbij _ n hn) hn hc
    exact hmin (b - a) (by omega) (by omega) this
  · have hlt2 : b < a := by omega
    have hc : P^[b] (P^[a - b] n) = P^[b] n := by
      rw [← Function.iterate_add_apply]
      rw [show b + (a - b) = a by omega]
      exact he
    have := iterate_cancel hbij b _ n (iterate_lt hbij _ n hn) hn hc
    exact hmin (a - b) (by omega) (by omega) this

theorem relocate_step {α β : Type} (P : Nat → Nat) (N : Nat)
    (mem0 : Nat → GNode α β) (hbij : BijOnRange P N) (n : Nat) (hn : n < N)
    (s : (Nat → GNode α β) × Finset Nat)
    (h1 : s.2 ⊆ Finset.range N)
    (h2 : ∀ v ∈ s.2, P v ∈ s.2)
    (h3 : ∀ v ∈ s.2, s.1 (P v) = mem0 v)
    (h4 : ∀ i, i ∉ s.2 → s.1 i = mem0 i) :
    (if n ∈ s.2 then s else
      cycleWalk P n N (swapMem s.1 n (P n)) (insert n s.2) (P n)).2 ⊆
        Finset.range N ∧
    (∀ v ∈ (if n ∈ s.2 then s else
      cycleWalk P n N (swapMem s.1 n (P n)) (insert n s.2) (P n)).2,
      P v ∈ (if n ∈ s.2 then s else
        cycleWalk P n N (swapMem s.1 n (P n)) (insert n s.2) (P n)).2) ∧
    (∀ v ∈ (if n ∈ s.2 then s else
      cycleWalk P n N (swapMem s.1 n (P n)) (insert n s.2) (P n)).2,
      (if n ∈ s.2 then s else
        cycleWalk P n N (swapMem s.1 n (P n)) (insert n s.2) (P n)).1 (P v) =
        mem0 v) ∧
    (∀ i, i ∉ (if n ∈ s.2 then s else
      cycleWalk P n N (swapMem s.1 n (P n)) (insert n s.2) (P n)).2 →
      (if n ∈ s.2 then s else
        cycleWalk P n N (swapMem s.1 n (P n)) (insert n s.2) (P n)).1 i = mem0 i) ∧
    s.2 ⊆ (if n ∈ s.2 then s else
      cycleWalk P n N (swapMem s.1 n (P n)) (insert n s.2) (P n)).2 ∧
    n ∈ (if n ∈ s.2 then s else
      cycleWalk P n N (swapMem s.1 n (P n)) (insert n s.2) (P n)).2 := by
  by_cases hns : n ∈ s.2
  · simp only [if_pos hns]
    exact ⟨h1, h2, h3, h4, Finset.Subset.refl _, hns⟩
  · simp only [if_neg hns]
    -- the visited set is closed backward under P
    have himg : s.2.image P = s.2 := by
      apply Finset.eq_of_subset_of_card_le
      · intro x hx
        obtain ⟨v, hv, hve⟩ := Finset.mem_image.mp hx
        exact hve ▸ h2 v hv
      · rw [Finset.card_image_of_injOn]
        intro a ha b hb he
        exact hbij.2.1 a (Finset.mem_range.mp (h1 ha)) b
          (Finset.mem_range.mp (h1 hb)) he
    have hback : ∀ v, v < N → v ∉ s.2 → P v ∉ s.2 := by
      intro v hv hvn hPv
      rw [← himg] at hPv
      obtain ⟨w, hw, hwe⟩ := Finset.mem_image.mp hPv
      have hwN : w < N := Finset.mem_range.mp (h1 hw)
      exact hvn (hbij.2.1 w hwN v hv hwe ▸ hw)
    have hiter_not : ∀ k, P^[k] n ∉ s.2 := by
      intro k
      induction k with
      | zero => simpa using hns
      | succ k ih =>
        rw [Function.iterate_succ_apply']
        exact hback _ (iterate_lt hbij k n hn) ih
    -- minimal period
    have hex := exists_period hbij n hn
    set m := Nat.find hex with hm
    have hm0 : 0 < m := (Nat.find_spec hex).1
    have hmP : P^[m] n = n := (Nat.find_spec hex).2
    have hmin : ∀ k, 0 < k → k < m → P^[k] n ≠ n := by
      intro k hk0 hkm hke
      exact Nat.find_min hex hkm ⟨hk0, hke⟩
    have hcyc : n :: orbitList P (P n) (m - 1) = orbitList P n m := by
      rcases hmm : m with _ | mm
      · omega
      · rfl
    set rl := orbitList P (P n) (m - 1) with hrl
    have hmemcyc : ∀ v, v ∈ n :: rl ↔ ∃ k, k < m ∧ v = P^[k] n := by
      intro v
      rw [hcyc, orbitList_mem]
    have hchain' : ∀ pr ∈ (n :: rl).zip rl, pr.2 = P pr.1 := by
      intro pr hpr
      apply orbitList_chain P m n pr
      rw [← hcyc]
      exact hpr
    have hlenrl : rl.length = m - 1 := orbitList_length P (m - 1) (P n)
    have hclose' : P ((n :: rl).getLastD n) = n := by
      rw [hcyc, orbitList_getLastD P m n n hm0,
        ← Function.iterate_succ_apply' P (m - 1) n, show Nat.succ (m - 1) = m by omega]
      exact hmP
    have hnd' : (n :: rl).Nodup := by
      rw [hcyc]
      exact orbit_nodup hbij n hn m hmin
    have hdisj' : ∀ x ∈ n :: rl, x ∉ s.2 := by
      intro x hx
      obtain ⟨k, _, hke⟩ := (hmemcyc x).mp hx
      exact hke ▸ hiter_not k
    have hltN : ∀ x ∈ n :: rl, x < N := by
      intro x hx
      obtain ⟨k, _, hke⟩ := (hmemcyc x).mp hx
      exact hke ▸ iterate_lt hbij k n hn
    have hmN : m ≤ N := by
      have hsubr : (n :: rl).toFinset ⊆ Finset.range N := by
        intro x hx
        exact Finset.mem_range.mpr (hltN x (List.mem_toFinset.mp hx))
      have hcard := Finset.card_le_card hsubr
      rw [List.toFinset_card_of_nodup hnd', Finset.card_range] at hcard
      simp only [List.length_cons, hlenrl] at hcard
      omega
    have hfuel : rl.length < N := by omega
    have hPcyc : ∀ v ∈ n :: rl, P v ∈ n :: rl := by
      intro v hv
      obtain ⟨k, hk, hke⟩ := (hmemcyc v).mp hv
      rcases Nat.lt_or_ge (k + 1) m with h | h
      · refine (hmemcyc (P v)).mpr ⟨k + 1, h, ?_⟩
        rw [hke, ← Function.iterate_succ_apply' P k n]
      · have hPvn : P v = n := by
          rw [hke, ← Function.iterate_succ_apply' P k n,
            show Nat.succ k = m by omega]
          exact hmP
        refine (hmemcyc (P v)).mpr ⟨0, hm0, ?_⟩
        rw [hPvn]
        rfl
    obtain ⟨hvis, hcycmem, hcycout⟩ :=
      processCycle_spec P n rl N s.1 s.2 hfuel hchain' hclose' hnd' hdisj'
    refine ⟨?_, ?_, ?_, ?_, ?_, ?_⟩
    · rw [hvis]
      intro x hx
      rcases Finset.mem_union.mp hx with h | h
      · exact h1 h
      · exact Finset.mem_range.mpr (hltN x (List.mem_toFinset.mp h))
    · intro v hv
      rw [hvis] at hv ⊢
      rcases Finset.mem_union.mp hv with h | h
      · exact Finset.mem_union_left _ (h2 v h)
      · exact Finset.mem_union_right _
          (List.mem_toFinset.mpr (hPcyc v (List.mem_toFinset.mp h)))
    · intro v hv
      rw [hvis] at hv
      rcases Finset.mem_union.mp hv with h | h
      · have hPv : P v ∉ n :: rl := by
          intro hPv
          exact hdisj' (P v) hPv (h2 v h)
        rw [hcycout (P v) hPv]
        exact h3 v h
      · have hvcyc : v ∈ n :: rl := List.mem_toFinset.mp h
        rw [hcycmem v hvcyc]
        exact h4 v (hdisj' v hvcyc)
    · intro i hi
      rw [hvis] at hi
      have hicyc : i ∉ n :: rl := by
        intro h
        exact hi (Finset.mem_union_right _ (List.mem_toFinset.mpr h))
      have his : i ∉ s.2 := by
        intro h
        exact hi (Finset.mem_union_left _ h)
      rw [hcycout i hicyc]
      exact h4 i his
    · rw [hvis]
      exact Finset.subset_union_left
    · rw [hvis]
      exact Finset.mem_union_right _
        (List.mem_toFinset.mpr (List.mem_cons_self n rl))

theorem relocateStep_spec {α β : Type} (P : Nat → Nat) (N : Nat)
    (mem0 : Nat → GNode α β) (hbij : BijOnRange P N) (n : Nat) (hn : n < N)
    (s : (Nat → GNode α β) × Finset Nat)
    (h1 : s.2 ⊆ Finset.range N)
    (h2 : ∀ v ∈ s.2, P v ∈ s.2)
    (h3 : ∀ v ∈ s.2, s.1 (P v) = mem0 v)
    (h4 : ∀ i, i ∉ s.2 → s.1 i = mem0 i) :
    (relocateStep P N s n).2 ⊆ Finset.range N ∧
    (∀ v ∈ (relocateStep P N s n).2, P v ∈ (relocateStep P N s n).2) ∧
    (∀ v ∈ (relocateStep P N s n).2, (relocateStep P N s n).1 (P v) = mem0 v) ∧
    (∀ i, i ∉ (relocateStep P N s n).2 → (relocateStep P N s n).1 i = mem0 i) ∧
    s.2 ⊆ (relocateStep P N s n).2 ∧
    n ∈ (relocateStep P N s n).2 := by
  unfold relocateStep
  exact relocate_step P N mem0 hbij n hn s h1 h2 h3 h4

theorem relocate_fold {α β : Type} (P : Nat → Nat) (N : Nat)
    (mem0 : Nat → GNode α β) (hbij : BijOnRange P N) :
    ∀ (ns : List Nat) (s : (Nat → GNode α β) × Finset Nat),
      (∀ x ∈ ns, x < N) →
      s.2 ⊆ Finset.range N →
      (∀ v ∈ s.2, P v ∈ s.2) →
      (∀ v ∈ s.2, s.1 (P v) = mem0 v) →
      (∀ i, i ∉ s.2 → s.1 i = mem0 i) →
      (List.foldl (relocateStep P N) s ns).2 ⊆ Finset.range N ∧
      (∀ v ∈ (List.foldl (relocateStep P N) s ns).2,
        P v ∈ (List.foldl (relocateStep P N) s ns).2) ∧
      (∀ v ∈ (List.foldl (relocateStep P N) s ns).2,
        (List.foldl (relocateStep P N) s ns).1 (P v) = mem0 v) ∧
      (∀ i, i ∉ (List.foldl (relocateStep P N) s ns).2 →
        (List.foldl (relocateStep P N) s ns).1 i = mem0 i) ∧
      s.2 ⊆ (List.foldl (relocateStep P N) s ns).2 ∧
      (∀ x ∈ ns, x ∈ (List.foldl (relocateStep P N) s ns).2)
  | [], s, _, hs1, hs2, hs3, hs4 => by
    refine ⟨hs1, hs2, hs3, hs4, Finset.Subset.refl _, ?_⟩
    intro x hx
    simp at hx
  | nn :: ns, s, hns, hs1, hs2, hs3, hs4 => by
    have hnnN : nn < N := hns nn (List.mem_cons_self nn ns)
    obtain ⟨g1, g2, g3, g4, g5, g6⟩ :=
      relocateStep_spec P N mem0 hbij nn hnnN s hs1 hs2 hs3 hs4
    have hrest := relocate_fold P N mem0 hbij ns (relocateStep P N s nn)
      (fun x hx => hns x (List.mem_cons_of_mem nn hx)) g1 g2 g3 g4
    simp only [List.foldl_cons]
    refine ⟨hrest.1, hrest.2.1, hrest.2.2.1, hrest.2.2.2.1,
      Finset.Subset.trans g5 hrest.2.2.2.2.1, ?_⟩
    intro x hx
    rcases List.mem_cons.mp hx with h | h
    · subst h
      exact hrest.2.2.2.2.1 g6
    · exact hrest.2.2.2.2.2 x h

theorem relocateAll_spec {α β : Type} (P : Nat → Nat) (N : Nat)
    (mem0 : Nat → GNode α β) (hbij : BijOnRange P N) :
    (∀ v, v < N → relocateAll P N mem0 (P v) = mem0 v) ∧
    (∀ i, i ∉ Finset.range N → relocateAll P N mem0 i = mem0 i) := by
  have hfold := relocate_fold P N mem0 hbij (List.range N) (mem0, ∅)
    (fun x hx => List.mem_range.mp hx)
    (by simp)
    (by simp)
    (by simp)
    (by intro i _; rfl)
  constructor
  · intro v hv
    unfold relocateAll
    exact hfold.2.2.1 v
      (hfold.2.2.2.2.2 v (List.mem_range.mpr hv))
  · intro i hi
    unfold relocateAll
    refine hfold.2.2.2.1 i ?_
    intro hmem
    exact hi (hfold.1 hmem)

/-- Characterization of `Index::relabel`: the record formerly at `v` (with
its links rewritten through `P`) ends up at id `P v`; slots outside the
allocated range are untouched; the counters are unchanged. -/
theorem permuteIndex_spec {α β : Type} (st : IndexSt α β) (P : Nat → Nat)
    (hbij : BijOnRange P st.curN) :
    (∀ v, v < st.curN → (permuteIndex P st).mem (P v) =
      ⟨(st.mem v).data, (st.mem v).links.map P, (st.mem v).label⟩) ∧
    (∀ i, st.curN ≤ i → (permuteIndex P st).mem i = st.mem i) ∧
    (permuteIndex P st).curN = st.curN ∧
    (permuteIndex P st).M = st.M ∧
    (permuteIndex P st).maxN = st.maxN := by
  obtain ⟨hA, hB⟩ := relocateAll_spec P st.curN (rewireLinks P st).mem hbij
  refine ⟨?_, ?_, rfl, rfl, rfl⟩
  · intro v hv
    have h1 : (permuteIndex P st).mem (P v) = (rewireLinks P st).mem v := hA v hv
    rw [h1]
    simp only [rewireLinks, if_pos hv]
  · intro i hi
    have h1 : (permuteIndex P st).mem i = (rewireLinks P st).mem i := by
      refine hB i ?_
      simp only [Finset.mem_range]
      omega
    rw [h1]
    simp only [rewireLinks]
    rw [if_neg (by omega)]

/-! ## C5 -/

/-- C5: for every permutation P bijective over the allocated id range,
`Index::relabel` moves the record formerly stored at `v` to id `P v` with
every link slot value rewritten through `P`; consequently the multiset of
(data, label) pairs is preserved and the edge set is mapped to its image
under `P`. -/
theorem C5_relabel_spec {α β : Type} (st : IndexSt α β) (P : Nat → Nat)
    (hbij : BijOnRange P st.curN) (hwf : LinksWF st) :
    (∀ v, v < st.curN → (permuteIndex P st).mem (P v) =
      ⟨(st.mem v).data, (st.mem v).links.map P, (st.mem v).label⟩) ∧
    (((List.range st.curN).map
      (fun v => ((permuteIndex P st).dataOf v, (permuteIndex P st).labelOf v))
        : Multiset (α × β)) =
      ((List.range st.curN).map (fun v => (st.dataOf v, st.labelOf v))
        : Multiset (α × β))) ∧
    (∀ u v, u < st.curN → v < st.curN →
      (P v ∈ (permuteIndex P st).linksOf (P u) ↔ v ∈ st.linksOf u)) := by
  obtain ⟨hmove, huntouched, hcur, hM, hmax⟩ := permuteIndex_spec st P hbij
  have hrangeim : Finset.image P (Finset.range st.curN) = Finset.range st.curN := by
    apply Finset.eq_of_subset_of_card_le
    · intro x hx
      obtain ⟨v, hv, hve⟩ := Finset.mem_image.mp hx
      exact Finset.mem_range.mpr (hve ▸ hbij.1 v (Finset.mem_range.mp hv))
    · rw [Finset.card_image_of_injOn]
      intro a ha b hb he
      exact hbij.2.1 a (Finset.mem_range.mp ha) b (Finset.mem_range.mp hb) he
  have hPr : List.Perm ((List.range st.curN).map P) (List.range st.curN) := by
    apply List.perm_of_nodup_nodup_toFinset_eq
    · refine List.Nodup.map_on ?_ (List.nodup_range st.curN)
      intro a ha b hb he
      exact hbij.2.1 a (List.mem_range.mp ha) b (List.mem_range.mp hb) he
    · exact List.nodup_range st.curN
    · have hmapfin : ((List.range st.curN).map P).toFinset =
          (Finset.range st.curN).image P := by
        ext x
        simp
      have hrfin : (List.range st.curN).toFinset = Finset.range st.curN := by
        ext x
        simp
      rw [hmapfin, hrfin]
      exact hrangeim
  refine ⟨hmove, ?_, ?_⟩
  · rw [Multiset.coe_eq_coe]
    have s1 : List.Perm
        ((List.range st.curN).map
          (fun v => ((permuteIndex P st).dataOf v, (permuteIndex P st).labelOf v)))
        (((List.range st.curN).map P).map
          (fun v => ((permuteIndex P st).dataOf v, (permuteIndex P st).labelOf v))) :=
      hPr.symm.map _
    have s2 : (((List.range st.curN).map P).map
        (fun v => ((permuteIndex P st).dataOf v, (permuteIndex P st).labelOf v))) =
        (List.range st.curN).map (fun v => (st.dataOf v, st.labelOf v)) := by
      rw [List.map_map]
      apply List.map_congr_left
      intro v hv
      have hvN : v < st.curN := List.mem_range.mp hv
      have := hmove v hvN
      simp only [Function.comp_apply, IndexSt.dataOf, IndexSt.labelOf, this]
    exact s1.trans (by rw [s2])
  · intro u v hu hv
    have hlinks : (permuteIndex P st).linksOf (P u) = (st.mem u).links.map P := by
      unfold IndexSt.linksOf
      rw [hmove u hu]
    rw [hlinks]
    constructor
    · intro hin
      obtain ⟨w, hw, hwe⟩ := List.mem_map.mp hin
      have hwN : w < st.curN := by
        rcases (hwf u hu).2 w hw with h | h
        · omega
        · exact h
      have : w = v := hbij.2.1 w hwN v hv hwe
      exact this ▸ hw
    · intro hin
      exact List.mem_map_of_mem P hin

/-- C5 witness: the 3-cycle permutation on a concrete three-node index. -/
theorem C5_relabel_spec_witness :
    BijOnRange permC5 stP5.curN ∧ LinksWF stP5 ∧
    (permuteIndex permC5 stP5).mem (permC5 0) =
      ⟨(stP5.mem 0).data, (stP5.mem 0).links.map permC5, (stP5.mem 0).label⟩ :=
  ⟨by decide, by decide,
    (C5_relabel_spec stP5 permC5 (by decide) (by decide)).1 0 (by decide)⟩

/-! ## Entry selection and beam range lemmas -/

theorem strideNodes_lt (curN step : Nat) (hstep : 1 ≤ step) :
    ∀ x ∈ strideNodes curN step, x < curN := by
  intro x hx
  unfold strideNodes at hx
  obtain ⟨k, hk, hke⟩ := List.mem_map.mp hx
  have hkr : k < (curN + step - 1) / step := List.mem_range.mp hk
  have h1 : k + 1 ≤ (curN + step - 1) / step := hkr
  have h2 : (k + 1) * step ≤ ((curN + step - 1) / step) * step :=
    Nat.mul_le_mul_right step h1
  have h3 : ((curN + step - 1) / step) * step ≤ curN + step - 1 :=
    Nat.div_mul_le_self _ _
  have h4 : k * step + step ≤ curN + step - 1 := by
    calc k * step + step = (k + 1) * step := by ring
      _ ≤ ((curN + step - 1) / step) * step := h2
      _ ≤ curN + step - 1 := h3
  omega

theorem strideNodes_ne_nil (curN step : Nat) (hc : 0 < curN) (hstep : 1 ≤ step) :
    strideNodes curN step ≠ [] := by
  unfold strideNodes
  simp only [ne_eq, List.map_eq_nil_iff, List.range_eq_nil]
  have : 1 ≤ (curN + step - 1) / step := by
    rw [Nat.le_div_iff_mul_le (by omega)]
    omega
  omega

theorem argminFold_prop {D : Type} [LinearOrder D] (dq : Nat → D)
    (Q : D × Nat → Prop) :
    ∀ (ls : List Nat) (acc : Option (D × Nat)),
      (∀ p, acc = some p → Q p) → (∀ x ∈ ls, Q (dq x, x)) →
      ∀ p, argminFold dq ls acc = some p → Q p
  | [], acc, hacc, _, p, hp => hacc p hp
  | x :: ls, acc, hacc, hls, p, hp => by
    rcases acc with _ | ⟨bd, bn⟩
    · simp only [argminFold] at hp
      exact argminFold_prop dq Q ls (some (dq x, x))
        (fun q hq => by
          rw [Option.some_inj] at hq
          exact hq ▸ hls x (List.mem_cons_self x ls))
        (fun y hy => hls y (List.mem_cons_of_mem x hy)) p hp
    · simp only [argminFold] at hp
      by_cases hlt : dq x < bd
      · rw [if_pos hlt] at hp
        exact argminFold_prop dq Q ls (some (dq x, x))
          (fun q hq => by
            rw [Option.some_inj] at hq
            exact hq ▸ hls x (List.mem_cons_self x ls))
          (fun y hy => hls y (List.mem_cons_of_mem x hy)) p hp
      · rw [if_neg hlt] at hp
        exact argminFold_prop dq Q ls (some (bd, bn))
          (fun q hq => by
            rw [Option.some_inj] at hq
            exact hq ▸ hacc (bd, bn) rfl)
          (fun y hy => hls y (List.mem_cons_of_mem x hy)) p hp

theorem argminFold_isSome {D : Type} [LinearOrder D] (dq : Nat → D) :
    ∀ (ls : List Nat) (acc : Option (D × Nat)),
      (ls ≠ [] ∨ acc.isSome) → (argminFold dq ls acc).isSome
  | [], acc, h => by
    rcases h with h | h
    · exact absurd rfl h
    · simpa [argminFold] using h
  | x :: ls, acc, _ => by
    rcases acc with _ | ⟨bd, bn⟩
    · simp only [argminFold]
      exact argminFold_isSome dq ls (some (dq x, x)) (Or.inr rfl)
    · simp only [argminFold]
      by_cases hlt : dq x < bd
      · rw [if_pos hlt]
        exact argminFold_isSome dq ls (some (dq x, x)) (Or.inr rfl)
      · rw [if_neg hlt]
        exact argminFold_isSome dq ls (some (bd, bn)) (Or.inr rfl)

theorem pickEntryNode_lt {D : Type} [LinearOrder D] (dq : Nat → D)
    (curN numInit : Nat) (hc : 0 < curN) : pickEntryNode dq curN numInit < curN := by
  have hstep : 1 ≤ (if curN / numInit = 0 then 1 else curN / numInit) := by
    by_cases h : curN / numInit = 0
    · simp [h]
    · rw [if_neg h]
      exact Nat.pos_of_ne_zero h
  have hne := strideNodes_ne_nil curN _ hc hstep
  have hsome := argminFold_isSome dq (strideNodes curN
    (if curN / numInit = 0 then 1 else curN / numInit)) none (Or.inl hne)
  obtain ⟨p, hp⟩ := Option.isSome_iff_exists.mp hsome
  have hQ := argminFold_prop dq (fun r => r.2 < curN) _ none
    (fun q hq => by simp at hq)
    (fun x hx => strideNodes_lt curN _ hstep x hx) p hp
  simp only [pickEntryNode]
  rw [hp]
  exact hQ

theorem beamExpand_range {D : Type} [LinearOrder D] [Neg D] (dq : Nat → D)
    (buf N : Nat) (bs : BeamSt D) (l : Nat) (hl : l < N)
    (h : (∀ p ∈ bs.cands, p.2 < N) ∧ ∀ p ∈ bs.nbrs, p.2 < N) :
    (∀ p ∈ (beamExpand dq buf bs l).cands, p.2 < N) ∧
      ∀ p ∈ (beamExpand dq buf bs l).nbrs, p.2 < N := by
  obtain ⟨hc, hn⟩ := h
  unfold beamExpand
  by_cases h1 : l ∈ bs.vis
  · rw [if_pos h1]
    exact ⟨hc, hn⟩
  · rw [if_neg h1]
    by_cases h2 : bs.nbrs.length < buf ∨ dq l < bs.maxDist
    · rw [if_pos h2]
      have hcand : ∀ p ∈ pqInsert (-(dq l), l) bs.cands, p.2 < N := by
        intro p hp
        rcases List.mem_cons.mp
            ((List.perm_orderedInsert pqGe _ bs.cands).mem_iff.mp hp) with h | h
        · rw [h]
          exact hl
        · exact hc p h
      have hnbr : ∀ p ∈ pqInsert (dq l, l) bs.nbrs, p.2 < N := by
        intro p hp
        rcases List.mem_cons.mp
            ((List.perm_orderedInsert pqGe _ bs.nbrs).mem_iff.mp hp) with h | h
        · rw [h]
          exact hl
        · exact hn p h
      by_cases h3 : buf < (pqInsert (dq l, l) bs.nbrs).length
      · simp only [if_pos h3]
        exact ⟨hcand, fun p hp => hnbr p (List.mem_of_mem_tail hp)⟩
      · simp only [if_neg h3]
        exact ⟨hcand, hnbr⟩
    · rw [if_neg h2]
      exact ⟨hc, hn⟩

theorem foldl_beamExpand_range {D : Type} [LinearOrder D] [Neg D] (dq : Nat → D)
    (buf N : Nat) :
    ∀ (ls : List Nat) (bs : BeamSt D), (∀ l ∈ ls, l < N) →
      ((∀ p ∈ bs.cands, p.2 < N) ∧ ∀ p ∈ bs.nbrs, p.2 < N) →
      (∀ p ∈ (List.foldl (beamExpand dq buf) bs ls).cands, p.2 < N) ∧
        ∀ p ∈ (List.foldl (beamExpand dq buf) bs ls).nbrs, p.2 < N
  | [], bs, _, h => h
  | l :: ls, bs, hls, h => by
    simp only [List.foldl_cons]
    exact foldl_beamExpand_range dq buf N ls _
      (fun x hx => hls x (List.mem_cons_of_mem l hx))
      (beamExpand_range dq buf N bs l (hls l (List.mem_cons_self l ls)) h)

theorem beamLoop_range {D : Type} [LinearOrder D] [Neg D]
    (links : Nat → List Nat) (dq : Nat → D) (buf N : Nat)
    (hlinks : ∀ v, v < N → ∀ l ∈ links v, l < N) :
    ∀ (fuel : Nat) (bs : BeamSt D),
      ((∀ p ∈ bs.cands, p.2 < N) ∧ ∀ p ∈ bs.nbrs, p.2 < N) →
      (∀ p ∈ (beamLoop links dq buf fuel bs).cands, p.2 < N) ∧
        ∀ p ∈ (beamLoop links dq buf fuel bs).nbrs, p.2 < N
  | 0, bs, h => h
  | fuel + 1, bs, h => by
    rcases hc : bs.cands with _ | ⟨top, rest⟩
    · simpa [beamLoop, hc] using h
    · by_cases hbr : bs.maxDist < -top.1
      · simpa [beamLoop, hc, hbr] using h
      · simp only [beamLoop, hc, if_neg hbr]
        have htop : top.2 < N := h.1 top (by rw [hc]; exact List.mem_cons_self _ _)
        refine beamLoop_range links dq buf N hlinks fuel _
          (foldl_beamExpand_range dq buf N (links top.2) _
            (fun l hl => hlinks top.2 htop l hl) ?_)
        constructor
        · intro p hp
          exact h.1 p (by rw [hc]; exact List.mem_cons_of_mem top hp)
        · exact h.2

theorem beamSearchNodes_range {D α β : Type} [LinearOrder D] [Neg D]
    (st : IndexSt α β) (d : α → α → D) (q : α) (entry buf N : Nat)
    (hentry : entry < N)
    (hlinks : ∀ v, v < N → ∀ l ∈ st.linksOf v, l < N) :
    ∀ p ∈ beamSearchNodes st d q entry buf, p.2 < N := by
  intro p hp
  simp only [beamSearchNodes] at hp
  refine (beamLoop_range st.linksOf _ buf N hlinks (st.curN + 2) _ ?_).2 p hp
  constructor
  · intro r hr
    simp only [List.mem_singleton] at hr
    rw [hr]
    exact hentry
  · intro r hr
    simp only [List.mem_singleton] at hr
    rw [hr]
    exact hentry

/-! ## Neighbor selection and back-linking range lemmas -/

theorem selectNeighborsPQ_nodes_sub {D : Type} [LinearOrder D] [Neg D]
    (dn : Nat → Nat → D) (nbrs : List (D × Nat)) (M : Nat) :
    ∀ p ∈ selectNeighborsPQ dn nbrs M, ∃ q ∈ nbrs, q.2 = p.2 := by
  intro p hp
  unfold selectNeighborsPQ at hp
  by_cases hlen : nbrs.length < M
  · rw [if_pos hlen] at hp
    exact ⟨p, hp, rfl⟩
  · rw [if_neg hlen] at hp
    have hperm := foldl_pqInsert_perm (fun r : D × Nat => (-r.1, r.2))
      (selectLoop dn M (pqDrainNeg nbrs) []) []
    have hp2 := hperm.mem_iff.mp hp
    rw [List.append_nil] at hp2
    rcases List.mem_map.mp hp2 with ⟨c, hc, hce⟩
    rcases selectLoop_mem_src dn M _ [] c hc with h | h
    · simp at h
    · rcases List.mem_map.mp ((pqDrainNeg_perm nbrs).mem_iff.mp h) with ⟨q, hq, hqe⟩
      refine ⟨q, hq, ?_⟩
      have e1 : ((-q.1, q.2) : D × Nat).2 = c.2 := congrArg Prod.snd hqe
      have e2 : ((-c.1, c.2) : D × Nat).2 = p.2 := congrArg Prod.snd hce
      exact e1.trans e2

theorem foldl_pqInsert_cond_nodes {D : Type} [LinearOrder D]
    (dn : Nat → Nat → D) (nbrId : Nat) (Q : Nat → Prop) :
    ∀ (ls : List Nat) (acc : List (D × Nat)),
      (∀ p ∈ acc, Q p.2) → (∀ l ∈ ls, Q l) →
      ∀ p ∈ List.foldl
        (fun acc l => if l = nbrId then acc else pqInsert (dn nbrId l, l) acc)
        acc ls, Q p.2
  | [], acc, hacc, _, p, hp => hacc p hp
  | l :: ls, acc, hacc, hls, p, hp => by
    simp only [List.foldl_cons] at hp
    by_cases he : l = nbrId
    · rw [if_pos he] at hp
      exact foldl_pqInsert_cond_nodes dn nbrId Q ls acc hacc
        (fun x hx => hls x (List.mem_cons_of_mem l hx)) p hp
    · rw [if_neg he] at hp
      refine foldl_pqInsert_cond_nodes dn nbrId Q ls _ ?_
        (fun x hx => hls x (List.mem_cons_of_mem l hx)) p hp
      intro r hr
      rcases List.mem_cons.mp
          ((List.perm_orderedInsert pqGe _ acc).mem_iff.mp hr) with h | h
      · rw [h]
        exact hls l (List.mem_cons_self l ls)
      · exact hacc r h

theorem backLinkFor_vals {D : Type} [LinearOrder D] [Neg D]
    (dn : Nat → Nat → D) (M : Nat) (nbrLinks : List Nat) (nbrId newId : Nat) :
    ∀ x ∈ backLinkFor dn M nbrLinks nbrId newId,
      x = newId ∨ x = nbrId ∨ x ∈ nbrLinks := by
  intro x hx
  unfold backLinkFor at hx
  rcases hf : nbrLinks.findIdx? (fun y => y == nbrId) with _ | j
  · rw [hf] at hx
    have hcands : ∀ p ∈ List.foldl
        (fun acc l => if l = nbrId then acc else pqInsert (dn nbrId l, l) acc)
        (pqInsert (dn nbrId newId, newId) ([] : List (D × Nat))) nbrLinks,
        p.2 = newId ∨ p.2 ∈ nbrLinks := by
      refine foldl_pqInsert_cond_nodes dn nbrId
        (fun v => v = newId ∨ v ∈ nbrLinks) nbrLinks _ ?_ (fun l hl => Or.inr hl)
      intro p hp
      simp only [pqInsert, List.orderedInsert, List.mem_singleton] at hp
      rw [hp]
      exact Or.inl rfl
    have hx3 := List.mem_of_mem_take hx
    rcases List.mem_append.mp hx3 with h | h
    · obtain ⟨r, hr, hre⟩ := List.mem_map.mp h
      obtain ⟨q, hq, hqe⟩ := selectNeighborsPQ_nodes_sub dn _ M r hr
      rcases hcands q hq with h1 | h1
      · exact Or.inl (by rw [← hre, ← hqe, h1])
      · exact Or.inr (Or.inr (by rw [← hre, ← hqe]; exact h1))
    · exact Or.inr (Or.inl (List.eq_of_mem_replicate h))
  · rw [hf] at hx
    rcases List.mem_or_eq_of_mem_set hx with h | h
    · exact Or.inr (Or.inr h)
    · exact Or.inl h

theorem backLinkFor_length {D : Type} [LinearOrder D] [Neg D]
    (dn : Nat → Nat → D) (M : Nat) (nbrLinks : List Nat) (nbrId newId : Nat)
    (hlen : nbrLinks.length = M) :
    (backLinkFor dn M nbrLinks nbrId newId).length = M := by
  unfold backLinkFor
  rcases hf : nbrLinks.findIdx? (fun y => y == nbrId) with _ | j
  · rw [List.length_take, List.length_append, List.length_map,
      List.length_replicate]
    omega
  · rw [List.length_set]
    exact hlen

/-! ## Link-validity preservation (C4 support) -/

theorem linksOf_setLinks {α β : Type} (st : IndexSt α β) (n : Nat)
    (ls : List Nat) (m : Nat) :
    (setLinks st n ls).linksOf m = if m = n then ls else st.linksOf m := by
  simp only [setLinks, IndexSt.linksOf, updMem]
  by_cases h : m = n
  · simp [h]
  · simp [h]

theorem connectLoop_wf {D α β : Type} [LinearOrder D] [Neg D]
    (d : α → α → D) :
    ∀ (sel : List (D × Nat)) (st : IndexSt α β) (i newId : Nat),
      LinksWF st → (∀ p ∈ sel, p.2 < st.curN) → newId < st.curN →
      LinksWF (connectLoop d sel st i newId)
  | [], st, i, newId, hwf, _, _ => hwf
  | (c, nbr) :: rest, st, i, newId, hwf, hsel, hnew => by
    have hnbr : nbr < st.curN := hsel (c, nbr) (List.mem_cons_self _ _)
    show LinksWF (connectLoop d rest _ _ _)
    set st1 := setLinks st newId ((st.linksOf newId).set i nbr) with hst1
    have hwf1 : LinksWF st1 := by
      intro n hn
      rw [show st1.curN = st.curN from rfl] at hn
      have hM : st1.M = st.M := rfl
      rw [linksOf_setLinks, hM, show st1.curN = st.curN from rfl]
      by_cases he : n = newId
      · rw [if_pos he]
        obtain ⟨hl, hv⟩ := hwf newId hnew
        refine ⟨by rw [List.length_set]; exact hl, ?_⟩
        intro l hlm
        rcases List.mem_or_eq_of_mem_set hlm with h | h
        · rcases hv l h with h' | h'
          · rw [he]; exact Or.inl h'
          · exact Or.inr h'
        · rw [h]; exact Or.inr hnbr
      · rw [if_neg he]
        exact hwf n hn
    set dn : Nat → Nat → D := fun a b => d (st1.dataOf a) (st1.dataOf b) with hdn
    set st2 := setLinks st1 nbr (backLinkFor dn st1.M (st1.linksOf nbr) nbr newId)
      with hst2
    have hwf2 : LinksWF st2 := by
      intro n hn
      rw [show st2.curN = st.curN from rfl] at hn
      have hM : st2.M = st1.M := rfl
      rw [linksOf_setLinks, hM, show st2.curN = st.curN from rfl]
      by_cases he : n = nbr
      · rw [if_pos he]
        have hnbr1 : nbr < st1.curN := hnbr
        obtain ⟨hl, hv⟩ := hwf1 nbr hnbr1
        refine ⟨backLinkFor_length dn st1.M _ nbr newId hl, ?_⟩
        intro l hlm
        rcases backLinkFor_vals dn st1.M _ nbr newId l hlm with h | h | h
        · rw [h]; exact Or.inr hnew
        · rw [h, he]; exact Or.inl rfl
        · rcases hv l h with h' | h'
          · rw [he]; exact Or.inl h'
          · exact Or.inr h'
      · rw [if_neg he]
        exact hwf1 n hn
    exact connectLoop_wf d rest st2 (min (i + 1) st.M) newId hwf2
      (fun p hp => hsel p (List.mem_cons_of_mem _ hp)) hnew

theorem allocateNode_eq {α β : Type} (tf : α → α) (st : IndexSt α β)
    (v : α) (lbl : β) :
    allocateNode tf st v lbl =
      if st.maxN ≤ st.curN then none
      else some ({ st with
                     curN := st.curN + 1,
                     mem := updMem st.mem st.curN
                       ⟨tf v, List.replicate st.M st.curN, lbl⟩ },
                 st.curN) := rfl

theorem allocSt_wf {α β : Type} (tf : α → α) (st : IndexSt α β)
    (v : α) (lbl : β) (hwf : LinksWF st) :
    LinksWF ({ st with
                 curN := st.curN + 1,
                 mem := updMem st.mem st.curN
                   ⟨tf v, List.replicate st.M st.curN, lbl⟩ } : IndexSt α β) := by
  intro n hn
  simp only at hn
  simp only [IndexSt.linksOf, updMem]
  by_cases he : n = st.curN
  · rw [if_pos he]
    refine ⟨by simp, ?_⟩
    intro l hl
    rw [List.eq_of_mem_replicate hl, he]
    exact Or.inl rfl
  · rw [if_neg he]
    have hn' : n < st.curN := by omega
    obtain ⟨hl, hv⟩ := hwf n hn'
    refine ⟨hl, ?_⟩
    intro l hlm
    rcases hv l hlm with h | h
    · exact Or.inl h
    · exact Or.inr (by omega)

theorem addNode_wf {D α β : Type} [LinearOrder D] [Neg D]
    (d : α → α → D) (tf : α → α) (st : IndexSt α β) (v : α) (lbl : β)
    (efC numInit : Nat) (hwf : LinksWF st) :
    LinksWF (addNode d tf st v lbl efC numInit).2 := by
  simp only [addNode, allocateNode_eq]
  by_cases hfull : st.maxN ≤ st.curN
  · rw [if_pos hfull]
    exact hwf
  · rw [if_neg hfull]
    simp only
    set stA : IndexSt α β :=
      { st with
          curN := st.curN + 1,
          mem := updMem st.mem st.curN
            ⟨tf v, List.replicate st.M st.curN, lbl⟩ } with hstA
    have hwfA : LinksWF stA := allocSt_wf tf st v lbl hwf
    by_cases hpos : 0 < st.curN
    · rw [if_pos hpos]
      simp only
      have hcur : stA.curN = st.curN + 1 := rfl
      have hentry : pickEntryNode (fun n => d v (st.dataOf n)) st.curN numInit
          < stA.curN := by
        rw [hcur]
        exact Nat.lt_succ_of_lt (pickEntryNode_lt _ st.curN numInit hpos)
      have hrange := beamSearchNodes_range stA d v
        (pickEntryNode (fun n => d v (st.dataOf n)) st.curN numInit) efC
        stA.curN hentry
        (by
          intro w hw l hl
          rcases (hwfA w hw).2 l hl with h | h
          · rw [h]; exact hw
          · exact h)
      refine connectLoop_wf d _ stA 0 st.curN hwfA ?_ (by rw [hcur]; omega)
      intro p hp
      obtain ⟨q, hq, hqe⟩ := selectNeighborsPQ_nodes_sub
        (fun a b => d (stA.dataOf a) (stA.dataOf b)) _ stA.M p hp
      rw [← hqe]
      exact hrange q hq
    · rw [if_neg hpos]
      exact hwfA

theorem permuteIndex_wf {α β : Type} (P : Nat → Nat) (st : IndexSt α β)
    (hbij : BijOnRange P st.curN) (hwf : LinksWF st) :
    LinksWF (permuteIndex P st) := by
  obtain ⟨hmove, _, hcur, hM, _⟩ := permuteIndex_spec st P hbij
  intro n hn
  rw [hcur] at hn
  obtain ⟨w, hw, hPw⟩ := hbij.2.2 n hn
  have hmem : (permuteIndex P st).mem n =
      ⟨(st.mem w).data, (st.mem w).links.map P, (st.mem w).label⟩ := by
    rw [← hPw]
    exact hmove w hw
  obtain ⟨hl, hv⟩ := hwf w hw
  constructor
  · rw [IndexSt.linksOf, hmem, hM]
    simpa using hl
  · intro l hlm
    rw [IndexSt.linksOf, hmem] at hlm
    simp only [List.mem_map] at hlm
    obtain ⟨l0, hl0, hle⟩ := hlm
    rw [hcur]
    rcases hv l0 hl0 with h | h
    · rw [← hle, h, hPw]
      exact Or.inl rfl
    · rw [← hle]
      exact Or.inr (hbij.1 l0 h)

/-- **C4.** At every index state reachable by any sequence of create,
insert and reorder operations, every allocated node's link region has
exactly `M` entries, each a self-loop or an allocated node id. -/
theorem C4_reachable_links_wf {D α β : Type} [LinearOrder D] [Neg D]
    (d : α → α → D) (tf : α → α) (st : IndexSt α β)
    (h : Reachable d tf st) : LinksWF st := by
  induction h with
  | create M maxN mem0 =>
    intro n hn
    exact absurd hn (Nat.not_lt_zero n)
  | insertStep st v lbl efC numInit _ ih =>
    exact addNode_wf d tf st v lbl efC numInit ih
  | reorderStep st P _ hbij ih =>
    exact permuteIndex_wf P st hbij ih

theorem C4_reachable_links_wf_witness : LinksWF (permuteIndex permC4 stC4) :=
  C4_reachable_links_wf dInt id (permuteIndex permC4 stC4)
    (Reachable.reorderStep stC4 permC4
      (Reachable.insertStep _ 1 6 3 1
        (Reachable.insertStep _ 9 8 3 1
          (Reachable.insertStep _ 5 7 3 1
            (Reachable.create 2 4 (fun _ => ⟨0, [], 0⟩)))))
      (by decide))

end Flatnav
